import Mathlib

/-!
# ansible-roledep-validator: a shallow embedding and its verification

The Go program checks that every role a playbook references, directly or through
`meta/main.yml` dependencies, exists in a roles directory.  This file embeds the
functions of `dependency.go`, `symlink.go` and `processor.go` as Lean functions over an
explicit environment (`Env`) that stands for the operating system and the library calls
the program makes (`os.ReadFile`, `os.Stat`, `filepath.Join`, `yaml.Unmarshal`, ...).

Conventions of the embedding:
* a Go `string` is a Lean `String`; Go compares strings byte-wise, which is modelled by
  comparing the UTF-8 encodings (`goBytes`);
* a Go `error` is a `GoError`; a call returning `(T, error)` is an `Except GoError T`;
* every `rp.Log(...)` call site is one constructor of `LogEvent`, and a function returns
  the events it emitted next to its result;
* the `for len(toProcess) > 0` loop is run with fuel, one unit per iteration;
* the order in which `range` walks a map is the environment's choice (`Env.rangeOrder`);
  results that speak of it assume it visits every key once.
-/

namespace RoleDep

/-! ## Values shared by all components -/

/-- A Go `error` value: `os.IsNotExist` is the only thing the program asks of it. -/
structure GoError where
  isNotExist : Bool
  msg : String
  deriving DecidableEq, Repr

/-- The struct `MetaMain.Dependencies[i]` of `models.go`. -/
structure Dependency where
  role : String
  deriving DecidableEq, Repr

/-- The struct `MetaMain` of `models.go`. -/
structure MetaMain where
  dependencies : List Dependency
  deriving DecidableEq, Repr

/-- The dynamic values `yaml.v3` stores in an `interface{}`: `nil`, a `string`, a
`[]interface{}`, a `map[string]interface{}` (mapping with string keys only), a
`map[interface{}]interface{}` (any other mapping), or some other scalar, of which only the
Go type name matters (it is printed by `%T`). -/
inductive GoValue where
  | null : GoValue
  | str : String → GoValue
  | seq : List GoValue → GoValue
  | strMap : List (String × GoValue) → GoValue
  | genMap : List (GoValue × GoValue) → GoValue
  | other : String → GoValue

/-- The struct `Play` of `models.go`. -/
structure Play where
  roles : GoValue

/-- What `os.FileInfo` tells the program: `IsDir()` and `Mode()&os.ModeSymlink != 0`. -/
structure FileInfo where
  isDir : Bool
  isSymlink : Bool
  deriving DecidableEq, Repr

/-- An `os.DirEntry`; only `Name()` is used. -/
structure DirEntry where
  name : String
  deriving DecidableEq, Repr

/-- One constructor per `rp.Log` call site, carrying the arguments of the format. -/
inductive LogEvent where
  | foundDependencies (role : String) (deps : List String)
  | findingAllDependencies (roles : List String)
  | dependencyWarning (role : String) (err : GoError)
  | addingDependency (dep : String)
  | allRequiredRoles (keys : List String)
  | foundRoleString (role : String)
  | foundRoleMap (role : String)
  | unknownRoleFormat (typeName : String)
  | readingPlaybook (absPath : String)
  | foundPlays (n : Nat)
  | processingPlay (i : Nat)
  | unexpectedRolesFormat (i : Nat)
  | extractedRoles (n : Nat) (roles : List String)
  | roleMissing (role : String)
  | errorReadingEntry (name : String) (err : GoError)
  | foundRoleDirectory (name : String)
  | foundRoleSymlink (name target : String)
  | symlinkNotDirectory (name target : String)
  | brokenSymlink (name : String)
  | directoryContents
  | entryInfoError (name : String)
  | entrySymlink (name target : String)
  | entryIsDir (name : String) (isDir : Bool)
  | scanningRolesDirectory (absPath : String)
  | foundEntries (n : Nat)
  | noRolesFound (absPath : String)
  | foundRoles (n : Nat)
  deriving DecidableEq, Repr

/-- The operating system and library calls the program relies on.  The file system is
taken to be unchanged during one run. -/
structure Env where
  /-- The call `filepath.Join`. -/
  join : List String → String
  /-- The call `filepath.Abs`. -/
  abs : String → Except GoError String
  /-- The call `filepath.IsAbs`. -/
  isAbs : String → Bool
  /-- The call `filepath.Dir`. -/
  dir : String → String
  /-- The call `os.ReadFile`. -/
  readFile : String → Except GoError String
  /-- The calls `os.Open` followed by `io.ReadAll`, kept apart for their two error sites. -/
  openFile : String → Except GoError Unit
  /-- The call `io.ReadAll` on the opened file. -/
  readAll : String → Except GoError String
  /-- The call `os.Stat`. -/
  stat : String → Except GoError FileInfo
  /-- The call `os.Lstat`. -/
  lstat : String → Except GoError FileInfo
  /-- The call `os.Readlink`. -/
  readlink : String → Except GoError String
  /-- The call `os.ReadDir`. -/
  readDir : String → Except GoError (List DirEntry)
  /-- The call `yaml.Unmarshal(data, &meta)` with `meta : MetaMain`. -/
  unmarshalMeta : String → Except GoError MetaMain
  /-- The call `yaml.Unmarshal(data, &plays)` with `plays : []Play`. -/
  unmarshalPlays : String → Except GoError (List Play)
  /-- The order in which `for k := range m` visits the keys of a map. -/
  rangeOrder : List String → List String

/-! ## `map[string]bool`

Both maps of the program (`allDeps`, `availableRolesMap`) only ever store `true`, so a map
is represented by the list of its keys, in insertion order. -/

/-- A `map[string]bool` all of whose stored values are `true`. -/
abbrev GoMap := List String

/-- The expression `m[k]`: the stored value, `false` for a key that is not there. -/
def mapGet (m : GoMap) (k : String) : Bool := m.contains k

/-- The statement `m[k] = true`. -/
def mapSetTrue (m : GoMap) (k : String) : GoMap := if m.contains k then m else m ++ [k]

/-! ## Byte-wise string order and `sort.Strings` -/

/-- UTF-8 encoding of one code point, as byte values. -/
def utf8Encode (c : Nat) : List Nat :=
  if c < 0x80 then [c]
  else if c < 0x800 then [0xC0 + c / 64, 0x80 + c % 64]
  else if c < 0x10000 then [0xE0 + c / 4096, 0x80 + c / 64 % 64, 0x80 + c % 64]
  else [0xF0 + c / 262144, 0x80 + c / 4096 % 64, 0x80 + c / 64 % 64, 0x80 + c % 64]

/-- The bytes of a sequence of code points. -/
def charsBytes : List Char → List Nat
  | [] => []
  | c :: cs => utf8Encode c.toNat ++ charsBytes cs

/-- The bytes of a Go string. -/
def goBytes (s : String) : List Nat := charsBytes s.data

/-- Lexicographic `<` on byte sequences, a proper prefix being smaller. -/
def bytesLess : List Nat → List Nat → Bool
  | [], [] => false
  | [], _ :: _ => true
  | _ :: _, [] => false
  | a :: as, b :: bs => decide (a < b) || (decide (a = b) && bytesLess as bs)

/-- Go's `a < b` on strings. -/
def strLess (a b : String) : Bool := bytesLess (goBytes a) (goBytes b)

/-- Insert into a list sorted by `strLess`, after the elements that are not greater. -/
def insertSorted (x : String) : List String → List String
  | [] => [x]
  | y :: ys => if strLess x y then x :: y :: ys else y :: insertSorted x ys

/-- The call `sort.Strings`: the ascending rearrangement of the slice. -/
def sortStrings (l : List String) : List String := l.foldr insertSorted []

/-- The helper `getMapKeys` of `processor.go`: the keys, collected by `range` and sorted. -/
def getMapKeys (env : Env) (m : GoMap) : List String := sortStrings (env.rangeOrder m)

/-! ## Dependency resolver (`dependency.go`) -/

/-- The function `getDependencies`: the dependency names in `meta/main.yml` of a role. -/
def getDependencies (env : Env) (roleName rolesPath : String) :
    Except GoError (List String) × List LogEvent :=
  let metaFile := env.join [rolesPath, roleName, "meta", "main.yml"]
  match env.readFile metaFile with
  | .error err => if err.isNotExist then (.ok [], []) else (.error err, [])
  | .ok data =>
    match env.unmarshalMeta data with
    | .error err => (.error err, [])
    | .ok m =>
      let deps := m.dependencies.map (fun dep => dep.role)
      (.ok deps, if deps.length > 0 then [LogEvent.foundDependencies roleName deps] else [])

/-- The state of the work loop of `getAllDependencies`.  `lookups` and `enqueued` are
bookkeeping that the Go code does not store: the roles `getDependencies` was called for,
and the roles that were put on the queue, each in order of occurrence. -/
structure ResolveState where
  allDeps : GoMap
  toProcess : List String
  log : List LogEvent
  lookups : List String
  enqueued : List String
  deriving DecidableEq, Repr

/-- The inner loop `for _, dep := range deps` of `getAllDependencies`. -/
def addDeps : List String → ResolveState → ResolveState
  | [], st => st
  | dep :: deps, st =>
    if !mapGet st.allDeps dep then
      addDeps deps
        { st with
          log := st.log ++ [LogEvent.addingDependency dep]
          allDeps := mapSetTrue st.allDeps dep
          toProcess := st.toProcess ++ [dep]
          enqueued := st.enqueued ++ [dep] }
    else addDeps deps st

/-- One iteration of `for len(toProcess) > 0`, entered with `role` at the front of the
queue and `rest` behind it. -/
def loopBody (env : Env) (rolesPath : String) (role : String) (rest : List String)
    (st : ResolveState) : ResolveState :=
  let st1 := { st with toProcess := rest, lookups := st.lookups ++ [role] }
  match getDependencies env role rolesPath with
  | (.error err, lg) =>
    { st1 with log := st1.log ++ lg ++ [LogEvent.dependencyWarning role err] }
  | (.ok deps, lg) => addDeps deps { st1 with log := st1.log ++ lg }

/-- The loop `for len(toProcess) > 0`, with one unit of fuel per iteration; `none` when
the fuel does not suffice. -/
def workLoop (env : Env) (rolesPath : String) : Nat → ResolveState → Option ResolveState
  | fuel, st =>
    match st.toProcess with
    | [] => some st
    | role :: rest =>
      match fuel with
      | 0 => none
      | fuel + 1 => workLoop env rolesPath fuel (loopBody env rolesPath role rest st)

/-- The state in which `getAllDependencies` enters its work loop. -/
def initState (roles : List String) : ResolveState :=
  { allDeps := roles.foldl mapSetTrue []
    toProcess := roles
    log := [LogEvent.findingAllDependencies roles]
    lookups := []
    enqueued := roles }

/-- What `getAllDependencies` returns: the map, the error, and the trace. -/
structure ResolveResult where
  allDeps : GoMap
  err : Option GoError
  log : List LogEvent
  lookups : List String
  enqueued : List String
  deriving DecidableEq, Repr

/-- The function `getAllDependencies`. -/
def getAllDependencies (env : Env) (roles : List String) (rolesPath : String)
    (fuel : Nat) : Option ResolveResult :=
  match workLoop env rolesPath fuel (initState roles) with
  | none => none
  | some st =>
    some
      { allDeps := st.allDeps
        err := none
        log := st.log ++ [LogEvent.allRequiredRoles (getMapKeys env st.allDeps)]
        lookups := st.lookups
        enqueued := st.enqueued }

/-! ## Playbook role extractor (`dependency.go`) -/

/-- The error built by `fmt.Errorf(prefix + "%v", err)`; it does not wrap `err`. -/
def errorf (pre : String) (err : GoError) : GoError := ⟨false, pre ++ err.msg⟩

/-- The index expression `role["role"]` on a `map[interface{}]interface{}`. -/
def lookupRoleKey : List (GoValue × GoValue) → Option GoValue
  | [] => none
  | (k, v) :: rest =>
    match k with
    | .str s => if s = "role" then some v else lookupRoleKey rest
    | _ => lookupRoleKey rest

/-- What `%T` prints for a value. -/
def typeName : GoValue → String
  | .null => "<nil>"
  | .str _ => "string"
  | .seq _ => "[]interface {}"
  | .strMap _ => "map[string]interface {}"
  | .genMap _ => "map[interface {}]interface {}"
  | .other t => t

/-- The function `extractRoleFromPlaybook`: the new contents of `*rolesList`, and the
events logged. -/
def extractRoleFromPlaybook (roleValue : GoValue) (rolesList : List String) :
    List String × List LogEvent :=
  match roleValue with
  | .str role => (rolesList ++ [role], [LogEvent.foundRoleString role])
  | .genMap role =>
    match lookupRoleKey role with
    | some (.str roleName) => (rolesList ++ [roleName], [LogEvent.foundRoleMap roleName])
    | _ => (rolesList, [])
  | v => (rolesList, [LogEvent.unknownRoleFormat (typeName v)])

/-- The loop `for _, item := range rolesArray` of `getPlaybookRoles`. -/
def extractItems : List GoValue → List String × List LogEvent → List String × List LogEvent
  | [], acc => acc
  | item :: items, (roles, log) =>
    let (roles1, lg) := extractRoleFromPlaybook item roles
    extractItems items (roles1, log ++ lg)

/-- The loop `for i, play := range plays` of `getPlaybookRoles`, entered at index `i`. -/
def extractPlays : Nat → List Play → List String × List LogEvent → List String × List LogEvent
  | _, [], acc => acc
  | i, play :: plays, (roles, log) =>
    let log1 := log ++ [LogEvent.processingPlay (i + 1)]
    match play.roles with
    | .null => extractPlays (i + 1) plays (roles, log1)
    | .seq rolesArray => extractPlays (i + 1) plays (extractItems rolesArray (roles, log1))
    | _ => extractPlays (i + 1) plays (roles, log1 ++ [LogEvent.unexpectedRolesFormat (i + 1)])

/-- The function `getPlaybookRoles`. -/
def getPlaybookRoles (env : Env) (playbookPath : String) :
    Except GoError (List String) × List LogEvent :=
  match env.abs playbookPath with
  | .error err => (.error (errorf "error resolving absolute path: " err), [])
  | .ok absPath =>
    let log0 := [LogEvent.readingPlaybook absPath]
    match env.stat absPath with
    | .error err => (.error (errorf "error accessing playbook file: " err), log0)
    | .ok fileInfo =>
      if fileInfo.isDir then
        (.error ⟨false, "playbook path is a directory, not a file"⟩, log0)
      else
        match env.openFile absPath with
        | .error err => (.error (errorf "error opening playbook file: " err), log0)
        | .ok _ =>
          match env.readAll absPath with
          | .error err => (.error (errorf "error reading playbook file: " err), log0)
          | .ok data =>
            match env.unmarshalPlays data with
            | .error err => (.error (errorf "error parsing playbook YAML: " err), log0)
            | .ok plays =>
              let (roles, log1) :=
                extractPlays 0 plays ([], log0 ++ [LogEvent.foundPlays plays.length])
              (.ok roles, log1 ++ [LogEvent.extractedRoles roles.length roles])

/-! ## Role discovery (`symlink.go`) -/

/-- The function `isValidSymlinkToDir`. -/
def isValidSymlinkToDir (env : Env) (path : String) : Bool × String :=
  match env.readlink path with
  | .error _ => (false, "")
  | .ok target =>
    let target := if !env.isAbs target then env.join [env.dir path, target] else target
    match env.stat target with
    | .error _ => (false, target)
    | .ok targetInfo => (targetInfo.isDir, target)

/-- The function `processDirectoryEntry`: the new contents of `*roles`, and the events
logged. -/
def processDirectoryEntry (env : Env) (entry : DirEntry) (absPath : String)
    (roles : List String) : List String × List LogEvent :=
  let entryPath := env.join [absPath, entry.name]
  match env.lstat entryPath with
  | .error err => (roles, [LogEvent.errorReadingEntry entry.name err])
  | .ok fileInfo =>
    if fileInfo.isDir then
      (roles ++ [entry.name], [LogEvent.foundRoleDirectory entry.name])
    else if fileInfo.isSymlink then
      match isValidSymlinkToDir env entryPath with
      | (isValidDir, targetPath) =>
        if isValidDir then
          (roles ++ [entry.name], [LogEvent.foundRoleSymlink entry.name targetPath])
        else if targetPath ≠ "" then
          (roles, [LogEvent.symlinkNotDirectory entry.name targetPath])
        else
          (roles, [LogEvent.brokenSymlink entry.name])
    else (roles, [])

/-- The loop `for _, entry := range entries` of `getAllRoles`. -/
def processEntries (env : Env) (absPath : String) :
    List DirEntry → List String × List LogEvent → List String × List LogEvent
  | [], acc => acc
  | entry :: entries, (roles, log) =>
    let (roles1, lg) := processDirectoryEntry env entry absPath roles
    processEntries env absPath entries (roles1, log ++ lg)

/-- The loop of `printDirectoryDebugInfo`. -/
def debugEntries (env : Env) (absPath : String) : List DirEntry → List LogEvent
  | [] => []
  | entry :: entries =>
    let entryPath := env.join [absPath, entry.name]
    let line :=
      match env.lstat entryPath with
      | .error _ => LogEvent.entryInfoError entry.name
      | .ok fileInfo =>
        if fileInfo.isSymlink then
          match env.readlink entryPath with
          | .error _ => LogEvent.entrySymlink entry.name ""
          | .ok target => LogEvent.entrySymlink entry.name target
        else LogEvent.entryIsDir entry.name fileInfo.isDir
    line :: debugEntries env absPath entries

/-- The function `printDirectoryDebugInfo`. -/
def printDirectoryDebugInfo (env : Env) (entries : List DirEntry) (absPath : String) :
    List LogEvent :=
  LogEvent.directoryContents :: debugEntries env absPath entries

/-- The function `getAllRoles`. -/
def getAllRoles (env : Env) (rolesPath : String) :
    Except GoError (List String) × List LogEvent :=
  match env.abs rolesPath with
  | .error err => (.error (errorf "error resolving absolute path: " err), [])
  | .ok absPath =>
    let log0 := [LogEvent.scanningRolesDirectory absPath]
    match env.stat absPath with
    | .error err => (.error (errorf "error accessing roles directory: " err), log0)
    | .ok fileInfo =>
      if !fileInfo.isDir then (.error ⟨false, "roles path is not a directory"⟩, log0)
      else
        match env.readDir absPath with
        | .error err => (.error (errorf "error reading roles irectory: " err), log0)
        | .ok entries =>
          let (roles, log1) :=
            processEntries env absPath entries
              ([], log0 ++ [LogEvent.foundEntries entries.length])
          let log2 :=
            if roles.length = 0 then
              log1 ++ [LogEvent.noRolesFound absPath] ++
                printDirectoryDebugInfo env entries absPath
            else log1
          (.ok roles, log2 ++ [LogEvent.foundRoles roles.length])

/-! ## Missing-role detector (`processor.go`) -/

/-- The loop of step 4 of `findMissingRoles`, over the keys in the order `range` visits
them. -/
def collectMissing (availableRolesMap : GoMap) :
    List String → List String × List LogEvent → List String × List LogEvent
  | [], acc => acc
  | role :: order, (missingRoles, log) =>
    if !mapGet availableRolesMap role then
      collectMissing availableRolesMap order
        (missingRoles ++ [role], log ++ [LogEvent.roleMissing role])
    else collectMissing availableRolesMap order (missingRoles, log)

/-- Step 4 of `findMissingRoles`: collect the required roles that are not available, in
`range` order `order`, then `sort.Strings`. -/
def missingStep (order : List String) (availableRolesMap : GoMap) :
    List String × List LogEvent :=
  let (missingRoles, log) := collectMissing availableRolesMap order ([], [])
  (sortStrings missingRoles, log)

/-- The function `findMissingRoles`; `none` when the fuel of the work loop does not
suffice. -/
def findMissingRoles (env : Env) (playbookPath rolesPath : String) (fuel : Nat) :
    Option (Except GoError (List String) × List LogEvent) :=
  match getPlaybookRoles env playbookPath with
  | (.error err, log1) => some (.error (errorf "error reading playbook: " err), log1)
  | (.ok playbookRoles, log1) =>
    match getAllRoles env rolesPath with
    | (.error err, log2) =>
      some (.error (errorf "error getting all roles: " err), log1 ++ log2)
    | (.ok allAvailableRoles, log2) =>
      let availableRolesMap : GoMap := allAvailableRoles.foldl mapSetTrue []
      match getAllDependencies env playbookRoles rolesPath fuel with
      | none => none
      | some res =>
        match res.err with
        | some err =>
          some (.error (errorf "error getting dependencies: " err), log1 ++ log2 ++ res.log)
        | none =>
          let (missingRoles, log4) :=
            missingStep (env.rangeOrder res.allDeps) availableRolesMap
          some (.ok missingRoles, log1 ++ log2 ++ res.log ++ log4)

/-! ## The "depends on" relation and its closure -/

/-- The roles `role` depends on: what `getDependencies` returns for it, and nothing when
the lookup fails. -/
def depsOf (env : Env) (rolesPath role : String) : List String :=
  match (getDependencies env role rolesPath).1 with
  | .ok deps => deps
  | .error _ => []

/-- The role `r` is reached from the seeds by zero or more "depends on" steps. -/
inductive Reachable (env : Env) (rolesPath : String) (seeds : List String) : String → Prop
  | seed {r : String} : r ∈ seeds → Reachable env rolesPath seeds r
  | step {r d : String} :
      Reachable env rolesPath seeds r → d ∈ depsOf env rolesPath r →
        Reachable env rolesPath seeds d

/-- Every dependency name any role declares lies in the finite list `names`. -/
def FiniteSupport (env : Env) (rolesPath : String) (names : List String) : Prop :=
  ∀ role d, d ∈ depsOf env rolesPath role → d ∈ names

/-- The dependencies the inner loop of `getAllDependencies` finds new: those not in the
map `m`, each once, in order of first occurrence. -/
def newDeps : GoMap → List String → List String
  | _, [] => []
  | m, d :: ds => if mapGet m d then newDeps m ds else d :: newDeps (mapSetTrue m d) ds

/-- The names of `names` that are not keys of `m` yet, counted. -/
def unseen (names : List String) (m : GoMap) : Nat :=
  (names.filter (fun n => !mapGet m n)).length

/-- The invariant of the work loop of `getAllDependencies`, for the seed list `seeds`. -/
structure LoopInv (env : Env) (rolesPath : String) (seeds : List String)
    (st : ResolveState) : Prop where
  seeds_mem : ∀ s ∈ seeds, s ∈ st.allDeps
  reachable : ∀ r ∈ st.allDeps, Reachable env rolesPath seeds r
  closed : ∀ r ∈ st.allDeps, r ∈ st.toProcess ∨ ∀ d ∈ depsOf env rolesPath r, d ∈ st.allDeps
  queue_mem : ∀ r ∈ st.toProcess, r ∈ st.allDeps
  enq : st.enqueued = st.lookups ++ st.toProcess
  count : ∀ r, st.enqueued.count r =
    seeds.count r + (if r ∈ st.allDeps ∧ r ∉ seeds then 1 else 0)
  nodup : st.allDeps.Nodup

/-- Every failed lookup so far has left its warning in the log. -/
def WarnInv (env : Env) (rolesPath : String) (lookups : List String)
    (log : List LogEvent) : Prop :=
  ∀ role ∈ lookups, ∀ err, (getDependencies env role rolesPath).1 = .error err →
    LogEvent.dependencyWarning role err ∈ log

/-! ## What the extractor and the discovery are expected to yield -/

/-- The names one entry of a `roles` list stands for: a plain string stands for itself, a
general mapping for the string under its `role` key, anything else for nothing. -/
def entryNames : GoValue → List String
  | .str s => [s]
  | .genMap m =>
    match lookupRoleKey m with
    | some (.str roleName) => [roleName]
    | _ => []
  | _ => []

/-- The names of the entries of a `roles` list, in entry order. -/
def itemsNames : List GoValue → List String
  | [] => []
  | item :: items => entryNames item ++ itemsNames items

/-- The names one play contributes: those of its `roles` list, nothing when the section
is missing or is not a list. -/
def playNames (play : Play) : List String :=
  match play.roles with
  | .seq rolesArray => itemsNames rolesArray
  | _ => []

/-- The names of all plays, in play order. -/
def playbookNames : List Play → List String
  | [] => []
  | play :: plays => playNames play ++ playbookNames plays

/-- The entry, looked at without following symlinks, is a directory. -/
def isPlainDir (env : Env) (absPath : String) (entry : DirEntry) : Bool :=
  match env.lstat (env.join [absPath, entry.name]) with
  | .ok fileInfo => fileInfo.isDir
  | .error _ => false

/-- The path a link target stands for: itself when absolute, else taken from the directory
that holds the symlink. -/
def resolveTarget (env : Env) (path target : String) : String :=
  if env.isAbs target then target else env.join [env.dir path, target]

/-- The entry is a symlink whose resolved target exists and is a directory. -/
def isSymlinkToDir (env : Env) (absPath : String) (entry : DirEntry) : Bool :=
  match env.lstat (env.join [absPath, entry.name]) with
  | .error _ => false
  | .ok fileInfo =>
    fileInfo.isSymlink &&
      match env.readlink (env.join [absPath, entry.name]) with
      | .error _ => false
      | .ok target =>
        match env.stat (resolveTarget env (env.join [absPath, entry.name]) target) with
        | .ok targetInfo => targetInfo.isDir
        | .error _ => false

/-- The entry counts as a role. -/
def isRoleEntry (env : Env) (absPath : String) (entry : DirEntry) : Bool :=
  isPlainDir env absPath entry || isSymlinkToDir env absPath entry

/-! ## Concrete environments -/

/-- An error for which `os.IsNotExist` holds. -/
def errNotExist : GoError := ⟨true, "no such file or directory"⟩

/-- An error for which `os.IsNotExist` does not hold. -/
def errDenied : GoError := ⟨false, "permission denied"⟩

/-- An environment with no files at all: every call fails with "does not exist". -/
def emptyEnv : Env where
  join := fun parts => "/".intercalate parts
  abs := fun p => .ok p
  isAbs := fun _ => true
  dir := fun p => p
  readFile := fun _ => .error errNotExist
  openFile := fun _ => .error errNotExist
  readAll := fun _ => .error errNotExist
  stat := fun _ => .error errNotExist
  lstat := fun _ => .error errNotExist
  readlink := fun _ => .error errNotExist
  readDir := fun _ => .error errNotExist
  unmarshalMeta := fun _ => .ok ⟨[]⟩
  unmarshalPlays := fun _ => .ok []
  rangeOrder := fun keys => keys

/-- The role graph of `TestDependencyResolution`: A → B, B → C and D, D → E, C → A; the
role E has a `meta` directory without `main.yml`. -/
def graphEnv : Env :=
  { emptyEnv with
    readFile := fun p =>
      if p = "roles/A/meta/main.yml" then .ok "A.meta"
      else if p = "roles/B/meta/main.yml" then .ok "B.meta"
      else if p = "roles/C/meta/main.yml" then .ok "C.meta"
      else if p = "roles/D/meta/main.yml" then .ok "D.meta"
      else .error errNotExist
    unmarshalMeta := fun data =>
      if data = "A.meta" then .ok ⟨[⟨"B"⟩]⟩
      else if data = "B.meta" then .ok ⟨[⟨"C"⟩, ⟨"D"⟩]⟩
      else if data = "C.meta" then .ok ⟨[⟨"A"⟩]⟩
      else if data = "D.meta" then .ok ⟨[⟨"E"⟩]⟩
      else .error ⟨false, "yaml: unmarshal errors"⟩
    rangeOrder := fun keys => keys.reverse }

/-- The roles directory of `TestSymlinkHandling`, with a plain directory, a relative
symlink and a regular file added. -/
def linkEnv : Env :=
  { emptyEnv with
    isAbs := fun p =>
      match p.data with
      | '/' :: _ => true
      | _ => false
    dir := fun _ => "/t/roles"
    stat := fun p =>
      if p = "/t/roles" then .ok ⟨true, false⟩
      else if p = "/t/roles/plain-role" then .ok ⟨true, false⟩
      else if p = "/t/real-roles/valid-role" then .ok ⟨true, false⟩
      else if p = "/t/roles/../real-roles/valid-role" then .ok ⟨true, false⟩
      else if p = "/t/real-roles/non-dir-role" then .ok ⟨false, false⟩
      else if p = "/t/roles/README" then .ok ⟨false, false⟩
      else .error errNotExist
    lstat := fun p =>
      if p = "/t/roles/plain-role" then .ok ⟨true, false⟩
      else if p = "/t/roles/valid-symlink" then .ok ⟨false, true⟩
      else if p = "/t/roles/broken-symlink" then .ok ⟨false, true⟩
      else if p = "/t/roles/non-dir-symlink" then .ok ⟨false, true⟩
      else if p = "/t/roles/rel-symlink" then .ok ⟨false, true⟩
      else if p = "/t/roles/README" then .ok ⟨false, false⟩
      else .error errNotExist
    readlink := fun p =>
      if p = "/t/roles/valid-symlink" then .ok "/t/real-roles/valid-role"
      else if p = "/t/roles/broken-symlink" then .ok "/t/real-roles/nonexistent"
      else if p = "/t/roles/non-dir-symlink" then .ok "/t/real-roles/non-dir-role"
      else if p = "/t/roles/rel-symlink" then .ok "../real-roles/valid-role"
      else .error ⟨false, "invalid argument"⟩
    readDir := fun p =>
      if p = "/t/roles" then
        .ok [⟨"plain-role"⟩, ⟨"valid-symlink"⟩, ⟨"broken-symlink"⟩, ⟨"non-dir-symlink"⟩,
          ⟨"rel-symlink"⟩, ⟨"README"⟩]
      else .error errNotExist }

/-- A small site: the playbook `site.yml` names the roles A and web (and has one entry
decoded as a string-keyed mapping); the roles directory holds A, C and E; A depends on B
and C, and C depends on E and A. -/
def siteEnv : Env :=
  { emptyEnv with
    stat := fun p =>
      if p = "site.yml" then .ok ⟨false, false⟩
      else if p = "roles" then .ok ⟨true, false⟩
      else .error errNotExist
    openFile := fun p => if p = "site.yml" then .ok () else .error errNotExist
    readAll := fun p => if p = "site.yml" then .ok "site" else .error errNotExist
    unmarshalPlays := fun data =>
      if data = "site" then
        .ok [⟨.seq [.str "A", .genMap [(.str "role", .str "web"), (.other "int", .str "x")]]⟩,
          ⟨.null⟩, ⟨.seq [.strMap [("role", .str "db")]]⟩]
      else .error ⟨false, "yaml: unmarshal errors"⟩
    readDir := fun p =>
      if p = "roles" then .ok [⟨"A"⟩, ⟨"C"⟩, ⟨"E"⟩] else .error errNotExist
    lstat := fun p =>
      if p = "roles/A" then .ok ⟨true, false⟩
      else if p = "roles/C" then .ok ⟨true, false⟩
      else if p = "roles/E" then .ok ⟨true, false⟩
      else .error errNotExist
    readFile := fun p =>
      if p = "roles/A/meta/main.yml" then .ok "A.meta"
      else if p = "roles/C/meta/main.yml" then .ok "C.meta"
      else .error errNotExist
    unmarshalMeta := fun data =>
      if data = "A.meta" then .ok ⟨[⟨"B"⟩, ⟨"C"⟩]⟩
      else if data = "C.meta" then .ok ⟨[⟨"E"⟩, ⟨"A"⟩]⟩
      else .error ⟨false, "yaml: unmarshal errors"⟩
    rangeOrder := fun keys => keys.reverse }

/-- The graph of `graphEnv`, except that reading the metadata of B is denied. -/
def deniedEnv : Env :=
  { graphEnv with
    readFile := fun p =>
      if p = "roles/B/meta/main.yml" then .error errDenied else graphEnv.readFile p }

/-- An environment in which the working directory cannot be determined, so `filepath.Abs`
fails on the relative path `roles`, although that directory can be statted and listed. -/
def noCwdEnv : Env :=
  { emptyEnv with
    abs := fun _ => .error ⟨false, "getwd: no such file or directory"⟩
    stat := fun p => if p = "roles" then .ok ⟨true, false⟩ else .error errNotExist
    readDir := fun p => if p = "roles" then .ok [] else .error errNotExist }

/-! ## The states of the work loop -/

/-- The state of the work loop of `getAllDependencies` after `n` iterations, or after the
last one when the queue runs empty before. -/
def stateAfter (env : Env) (rolesPath : String) : Nat → ResolveState → ResolveState
  | 0, st => st
  | n + 1, st =>
    match st.toProcess with
    | [] => st
    | role :: rest => stateAfter env rolesPath n (loopBody env rolesPath role rest st)

/-! ## Shapes of a `roles` entry -/

/-- The entry is a plain string, or a general mapping with a string under `role`. -/
def isRecognized : GoValue → Bool
  | .str _ => true
  | .genMap m =>
    match lookupRoleKey m with
    | some (.str _) => true
    | _ => false
  | _ => false

/-- The entry is a `map[interface{}]interface{}`. -/
def isGenMap : GoValue → Bool
  | .genMap _ => true
  | _ => false

/-! ## The roles a playbook references -/

/-- The value under the key `role` of a `map[string]interface{}`. -/
def lookupStrKey : List (String × GoValue) → Option GoValue
  | [] => none
  | (k, v) :: rest => if k = "role" then some v else lookupStrKey rest

/-- The role one entry of a `roles` list references: a bare string names the role, a
structured record, however it was decoded, names the role under its `role` key. -/
def referencedName : GoValue → List String
  | .str s => [s]
  | .strMap m =>
    match lookupStrKey m with
    | some (.str roleName) => [roleName]
    | _ => []
  | .genMap m =>
    match lookupRoleKey m with
    | some (.str roleName) => [roleName]
    | _ => []
  | _ => []

/-- The roles the entries of a `roles` list reference, in entry order. -/
def referencedItems : List GoValue → List String
  | [] => []
  | item :: items => referencedName item ++ referencedItems items

/-- The roles a playbook references directly, in play order. -/
def referencedRoles : List Play → List String
  | [] => []
  | play :: plays =>
    (match play.roles with
      | .seq rolesArray => referencedItems rolesArray
      | _ => []) ++ referencedRoles plays

/-- A site whose playbook `site.yml` has the single entry `- role: db`, decoded by
`yaml.v3` as a `map[string]interface{}`, and whose roles directory is empty. -/
def onlyDbEnv : Env :=
  { emptyEnv with
    stat := fun p =>
      if p = "site.yml" then .ok ⟨false, false⟩
      else if p = "roles" then .ok ⟨true, false⟩
      else .error errNotExist
    openFile := fun p => if p = "site.yml" then .ok () else .error errNotExist
    readAll := fun p => if p = "site.yml" then .ok "site" else .error errNotExist
    unmarshalPlays := fun data =>
      if data = "site" then .ok [⟨.seq [.strMap [("role", .str "db")]]⟩]
      else .error ⟨false, "yaml: unmarshal errors"⟩
    readDir := fun p => if p = "roles" then .ok [] else .error errNotExist }

/-- The error `ENOTDIR`; `os.IsNotExist` does not hold for it. -/
def errNotDir : GoError := ⟨false, "not a directory"⟩

/-- A roles directory in which `roles/D/meta` is a regular file, so that
`roles/D/meta/main.yml` does not exist and every access below `meta` fails with
`ENOTDIR`. -/
def notDirEnv : Env :=
  { emptyEnv with
    stat := fun p =>
      if p = "roles" then .ok ⟨true, false⟩
      else if p = "roles/D" then .ok ⟨true, false⟩
      else if p = "roles/D/meta" then .ok ⟨false, false⟩
      else if p = "roles/D/meta/main.yml" then .error errNotDir
      else .error errNotExist
    lstat := fun p =>
      if p = "roles/D" then .ok ⟨true, false⟩
      else if p = "roles/D/meta" then .ok ⟨false, false⟩
      else if p = "roles/D/meta/main.yml" then .error errNotDir
      else .error errNotExist
    readFile := fun p =>
      if p = "roles/D/meta/main.yml" then .error errNotDir else .error errNotExist }

/-! ## Facts about `map[string]bool` -/

theorem mapGet_iff (m : GoMap) (k : String) : mapGet m k = true ↔ k ∈ m := by
  simp [mapGet]

theorem mapGet_false_iff (m : GoMap) (k : String) : mapGet m k = false ↔ k ∉ m := by
  simp [mapGet]

theorem mem_mapSetTrue (m : GoMap) (k r : String) : r ∈ mapSetTrue m k ↔ r ∈ m ∨ r = k := by
  unfold mapSetTrue
  split
  · rename_i h
    have hk : k ∈ m := by simpa using h
    constructor
    · intro hr; exact Or.inl hr
    · rintro (hr | rfl)
      · exact hr
      · exact hk
  · simp

theorem mapSetTrue_of_not_mem (m : GoMap) (k : String) (h : k ∉ m) :
    mapSetTrue m k = m ++ [k] := by
  simp [mapSetTrue, h]

theorem nodup_mapSetTrue (m : GoMap) (k : String) (h : m.Nodup) : (mapSetTrue m k).Nodup := by
  unfold mapSetTrue
  split
  · exact h
  · rename_i hk
    have hk2 : k ∉ m := by simpa using hk
    rw [List.nodup_append]
    refine ⟨h, List.nodup_singleton k, ?_⟩
    intro a ha hb
    simp at hb
    subst hb
    exact hk2 ha

theorem mem_foldl_mapSetTrue (l : List String) (m : GoMap) (r : String) :
    r ∈ l.foldl mapSetTrue m ↔ r ∈ m ∨ r ∈ l := by
  induction l generalizing m with
  | nil => simp
  | cons a l ih =>
    simp only [List.foldl_cons, ih, mem_mapSetTrue, List.mem_cons]
    tauto

theorem nodup_foldl_mapSetTrue (l : List String) (m : GoMap) (h : m.Nodup) :
    (l.foldl mapSetTrue m).Nodup := by
  induction l generalizing m with
  | nil => simpa using h
  | cons a l ih =>
    simp only [List.foldl_cons]
    exact ih _ (nodup_mapSetTrue m a h)

/-! ## The inner loop -/

theorem mem_newDeps (m : GoMap) (deps : List String) (r : String) :
    r ∈ newDeps m deps ↔ r ∈ deps ∧ r ∉ m := by
  induction deps generalizing m with
  | nil => simp [newDeps]
  | cons d ds ih =>
    unfold newDeps
    split
    · rename_i h
      have hd : d ∈ m := (mapGet_iff m d).1 h
      rw [ih, List.mem_cons]
      constructor
      · rintro ⟨h1, h2⟩; exact ⟨Or.inr h1, h2⟩
      · rintro ⟨h1 | h1, h2⟩
        · subst h1; exact absurd hd h2
        · exact ⟨h1, h2⟩
    · rename_i h
      have hd : d ∉ m := by
        intro hm; exact h ((mapGet_iff m d).2 hm)
      rw [List.mem_cons, ih, mem_mapSetTrue, List.mem_cons]
      constructor
      · rintro (h1 | ⟨h1, h2⟩)
        · subst h1; exact ⟨Or.inl rfl, hd⟩
        · exact ⟨Or.inr h1, fun hm => h2 (Or.inl hm)⟩
      · rintro ⟨h1 | h1, h2⟩
        · exact Or.inl h1
        · by_cases hrd : r = d
          · exact Or.inl hrd
          · refine Or.inr ⟨h1, ?_⟩
            rintro (hm | hm)
            · exact h2 hm
            · exact hrd hm

theorem nodup_newDeps (m : GoMap) (deps : List String) : (newDeps m deps).Nodup := by
  induction deps generalizing m with
  | nil => simp [newDeps]
  | cons d ds ih =>
    unfold newDeps
    split
    · exact ih m
    · rw [List.nodup_cons]
      refine ⟨?_, ih _⟩
      rw [mem_newDeps, mem_mapSetTrue]
      rintro ⟨_, h2⟩
      exact h2 (Or.inr rfl)

theorem addDeps_eq (deps : List String) (st : ResolveState) :
    addDeps deps st =
      { allDeps := st.allDeps ++ newDeps st.allDeps deps
        toProcess := st.toProcess ++ newDeps st.allDeps deps
        log := st.log ++ (newDeps st.allDeps deps).map LogEvent.addingDependency
        lookups := st.lookups
        enqueued := st.enqueued ++ newDeps st.allDeps deps } := by
  induction deps generalizing st with
  | nil => simp [addDeps, newDeps]
  | cons d ds ih =>
    unfold addDeps newDeps
    by_cases h : mapGet st.allDeps d = true
    · simp only [h, Bool.not_true, Bool.false_eq_true, if_false, if_true]
      exact ih st
    · have hd : d ∉ st.allDeps := fun hm => h ((mapGet_iff _ d).2 hm)
      simp only [h, Bool.not_eq_true] at *
      simp only [Bool.not_false, if_true, Bool.false_eq_true, if_false]
      rw [ih]
      simp [mapSetTrue_of_not_mem _ _ hd]

/-! ## One iteration of the work loop -/

theorem loopBody_eq (env : Env) (rolesPath role : String) (rest : List String)
    (st : ResolveState) :
    (loopBody env rolesPath role rest st).allDeps =
        st.allDeps ++ newDeps st.allDeps (depsOf env rolesPath role) ∧
      (loopBody env rolesPath role rest st).toProcess =
        rest ++ newDeps st.allDeps (depsOf env rolesPath role) ∧
      (loopBody env rolesPath role rest st).lookups = st.lookups ++ [role] ∧
      (loopBody env rolesPath role rest st).enqueued =
        st.enqueued ++ newDeps st.allDeps (depsOf env rolesPath role) := by
  unfold loopBody depsOf
  rcases h : getDependencies env role rolesPath with ⟨r, lg⟩
  cases r with
  | error e => simp [newDeps]
  | ok deps => simp [addDeps_eq]

theorem loopInv_init (env : Env) (rolesPath : String) (seeds : List String) :
    LoopInv env rolesPath seeds (initState seeds) where
  seeds_mem := by
    intro s hs
    simp only [initState]
    exact (mem_foldl_mapSetTrue seeds [] s).2 (Or.inr hs)
  reachable := by
    intro r hr
    simp only [initState] at hr
    rcases (mem_foldl_mapSetTrue seeds [] r).1 hr with h | h
    · simp at h
    · exact Reachable.seed h
  closed := by
    intro r hr
    simp only [initState] at hr
    rcases (mem_foldl_mapSetTrue seeds [] r).1 hr with h | h
    · simp at h
    · exact Or.inl h
  queue_mem := by
    intro r hr
    simp only [initState] at hr ⊢
    exact (mem_foldl_mapSetTrue seeds [] r).2 (Or.inr hr)
  enq := by simp [initState]
  count := by
    intro r
    have : ¬ (r ∈ (initState seeds).allDeps ∧ r ∉ seeds) := by
      rintro ⟨h1, h2⟩
      simp only [initState] at h1
      rcases (mem_foldl_mapSetTrue seeds [] r).1 h1 with h | h
      · simp at h
      · exact h2 h
    rw [if_neg this]
    simp [initState]
  nodup := by
    simp only [initState]
    exact nodup_foldl_mapSetTrue seeds [] List.nodup_nil

theorem loopInv_step (env : Env) (rolesPath : String) (seeds : List String)
    (st : ResolveState) (role : String) (rest : List String)
    (hq : st.toProcess = role :: rest) (inv : LoopInv env rolesPath seeds st) :
    LoopInv env rolesPath seeds (loopBody env rolesPath role rest st) := by
  obtain ⟨hA, hT, hL, hE⟩ := loopBody_eq env rolesPath role rest st
  have hrole : role ∈ st.allDeps := inv.queue_mem role (by rw [hq]; exact List.mem_cons_self _ _)
  refine ⟨?_, ?_, ?_, ?_, ?_, ?_, ?_⟩
  · intro s hs
    rw [hA]
    exact List.mem_append_left _ (inv.seeds_mem s hs)
  · intro r hr
    rw [hA, List.mem_append] at hr
    rcases hr with h | h
    · exact inv.reachable r h
    · exact Reachable.step (inv.reachable role hrole) ((mem_newDeps _ _ _).1 h).1
  · intro r hr
    rw [hA, List.mem_append] at hr
    rw [hT, hA]
    rcases hr with h | h
    · rcases inv.closed r h with hc | hc
      · rw [hq, List.mem_cons] at hc
        rcases hc with hc | hc
        · subst hc
          right
          intro d hd
          by_cases hm : d ∈ st.allDeps
          · exact List.mem_append_left _ hm
          · exact List.mem_append_right _ ((mem_newDeps _ _ _).2 ⟨hd, hm⟩)
        · exact Or.inl (List.mem_append_left _ hc)
      · exact Or.inr (fun d hd => List.mem_append_left _ (hc d hd))
    · exact Or.inl (List.mem_append_right _ h)
  · intro r hr
    rw [hT, List.mem_append] at hr
    rw [hA]
    rcases hr with h | h
    · exact List.mem_append_left _
        (inv.queue_mem r (by rw [hq]; exact List.mem_cons_of_mem _ h))
    · exact List.mem_append_right _ h
  · rw [hE, hT, hL, inv.enq, hq]
    simp
  · intro r
    rw [hE, hA, List.count_append, inv.count r]
    have hnd := nodup_newDeps st.allDeps (depsOf env rolesPath role)
    by_cases hn : r ∈ newDeps st.allDeps (depsOf env rolesPath role)
    · have hnot : r ∉ st.allDeps := ((mem_newDeps _ _ _).1 hn).2
      have hns : r ∉ seeds := fun hs => hnot (inv.seeds_mem r hs)
      rw [List.count_eq_one_of_mem hnd hn]
      rw [if_neg (fun h => hnot h.1), if_pos ⟨List.mem_append_right _ hn, hns⟩]
    · rw [List.count_eq_zero_of_not_mem hn]
      by_cases hc : r ∈ st.allDeps ∧ r ∉ seeds
      · rw [if_pos hc, if_pos ⟨List.mem_append_left _ hc.1, hc.2⟩]
      · rw [if_neg hc, if_neg]
        rintro ⟨h1, h2⟩
        rcases List.mem_append.1 h1 with h | h
        · exact hc ⟨h, h2⟩
        · exact hn h
  · rw [hA, List.nodup_append]
    refine ⟨inv.nodup, nodup_newDeps _ _, ?_⟩
    intro a ha hb
    exact ((mem_newDeps _ _ _).1 hb).2 ha

theorem workLoop_inv (env : Env) (rolesPath : String) (seeds : List String) (fuel : Nat) :
    ∀ st st1, LoopInv env rolesPath seeds st → workLoop env rolesPath fuel st = some st1 →
      LoopInv env rolesPath seeds st1 ∧ st1.toProcess = [] := by
  induction fuel with
  | zero =>
    intro st st1 inv h
    unfold workLoop at h
    split at h
    · rename_i hq
      simp only [Option.some.injEq] at h
      subst h
      exact ⟨inv, hq⟩
    · simp at h
  | succ n ih =>
    intro st st1 inv h
    unfold workLoop at h
    split at h
    · rename_i hq
      simp only [Option.some.injEq] at h
      subst h
      exact ⟨inv, hq⟩
    · rename_i role rest hq
      exact ih _ _ (loopInv_step env rolesPath seeds st role rest hq inv) h

theorem reachable_mem_of_closed (env : Env) (rolesPath : String) (seeds : List String)
    (st : ResolveState) (inv : LoopInv env rolesPath seeds st) (hq : st.toProcess = [])
    (r : String) (hr : Reachable env rolesPath seeds r) : r ∈ st.allDeps := by
  induction hr with
  | seed h => exact inv.seeds_mem _ h
  | step _ hd ih =>
    rcases inv.closed _ ih with hc | hc
    · rw [hq] at hc
      simp at hc
    · exact hc _ hd

/-! ## Termination of the work loop -/

theorem not_contains_true (m : GoMap) (n : String) : (!m.contains n) = true ↔ n ∉ m := by
  simp

theorem not_contains_false (m : GoMap) (n : String) : (!m.contains n) = false ↔ n ∈ m := by
  simp

theorem unseen_mono (names : List String) (m : GoMap) (d : String) :
    unseen names (m ++ [d]) ≤ unseen names m := by
  induction names with
  | nil => simp [unseen]
  | cons n ns ih =>
    simp only [unseen, List.filter_cons, mapGet] at ih ⊢
    by_cases h1 : n ∈ m
    · have h2 : n ∈ m ++ [d] := List.mem_append_left _ h1
      simpa [h1, h2] using ih
    · by_cases h2 : n ∈ m ++ [d]
      · have h3 : (!(m ++ [d]).contains n) = false := (not_contains_false _ _).2 h2
        have h4 : (!m.contains n) = true := (not_contains_true _ _).2 h1
        rw [h3, h4]
        simp only [Bool.false_eq_true, if_false, if_true, List.length_cons]
        omega
      · have h3 : (!(m ++ [d]).contains n) = true := (not_contains_true _ _).2 h2
        have h4 : (!m.contains n) = true := (not_contains_true _ _).2 h1
        rw [h3, h4]
        simp only [if_true, List.length_cons]
        omega

theorem unseen_insert (names : List String) (m : GoMap) (d : String) (hd : d ∈ names)
    (hm : d ∉ m) : unseen names (m ++ [d]) + 1 ≤ unseen names m := by
  induction names with
  | nil => simp at hd
  | cons n ns ih =>
    have hmono := unseen_mono ns m d
    simp only [unseen, List.filter_cons, mapGet] at ih hmono ⊢
    by_cases hnd : n = d
    · subst hnd
      have h3 : (!(m ++ [n]).contains n) = false := (not_contains_false _ _).2 (by simp)
      have h4 : (!m.contains n) = true := (not_contains_true _ _).2 hm
      rw [h3, h4]
      simp only [Bool.false_eq_true, if_false, if_true, List.length_cons]
      omega
    · have hd2 : d ∈ ns := by
        rcases List.mem_cons.1 hd with h | h
        · exact absurd h.symm hnd
        · exact h
      have ih2 := ih hd2
      by_cases h1 : n ∈ m
      · have h2 : n ∈ m ++ [d] := List.mem_append_left _ h1
        simpa [h1, h2] using ih2
      · have h2 : n ∉ m ++ [d] := by
          simp only [List.mem_append, List.mem_singleton, not_or]
          exact ⟨h1, hnd⟩
        have h3 : (!(m ++ [d]).contains n) = true := (not_contains_true _ _).2 h2
        have h4 : (!m.contains n) = true := (not_contains_true _ _).2 h1
        rw [h3, h4]
        simp only [if_true, List.length_cons]
        omega

theorem unseen_append (names : List String) (new : List String) :
    ∀ m : GoMap, new.Nodup → (∀ d ∈ new, d ∈ names ∧ d ∉ m) →
      unseen names (m ++ new) + new.length ≤ unseen names m := by
  induction new with
  | nil => intro m _ _; simp
  | cons d ds ih =>
    intro m hnd hmem
    have hd := hmem d (List.mem_cons_self _ _)
    have h1 := unseen_insert names m d hd.1 hd.2
    have hnd2 := List.nodup_cons.1 hnd
    have h2 := ih (m ++ [d]) hnd2.2 (by
      intro x hx
      have hx2 := hmem x (List.mem_cons_of_mem _ hx)
      refine ⟨hx2.1, ?_⟩
      simp only [List.mem_append, List.mem_singleton, not_or]
      refine ⟨hx2.2, ?_⟩
      rintro rfl
      exact hnd2.1 hx)
    have e : m ++ d :: ds = (m ++ [d]) ++ ds := by simp
    rw [e, List.length_cons]
    omega

theorem loopBody_measure (env : Env) (rolesPath : String) (names : List String)
    (hfin : FiniteSupport env rolesPath names) (role : String) (rest : List String)
    (st : ResolveState) :
    unseen names (loopBody env rolesPath role rest st).allDeps +
        (loopBody env rolesPath role rest st).toProcess.length ≤
      unseen names st.allDeps + rest.length := by
  obtain ⟨hA, hT, _, _⟩ := loopBody_eq env rolesPath role rest st
  rw [hA, hT, List.length_append]
  have h := unseen_append names (newDeps st.allDeps (depsOf env rolesPath role)) st.allDeps
    (nodup_newDeps _ _) (by
      intro d hd
      have hd2 := (mem_newDeps _ _ _).1 hd
      exact ⟨hfin role d hd2.1, hd2.2⟩)
  omega

theorem workLoop_terminates (env : Env) (rolesPath : String) (names : List String)
    (hfin : FiniteSupport env rolesPath names) (fuel : Nat) :
    ∀ st : ResolveState, unseen names st.allDeps + st.toProcess.length ≤ fuel →
      ∃ st1, workLoop env rolesPath fuel st = some st1 := by
  induction fuel with
  | zero =>
    intro st h
    unfold workLoop
    split
    · exact ⟨st, rfl⟩
    · rename_i role rest hq
      rw [hq] at h
      simp at h
  | succ n ih =>
    intro st h
    unfold workLoop
    split
    · exact ⟨st, rfl⟩
    · rename_i role rest hq
      rw [hq, List.length_cons] at h
      have hm := loopBody_measure env rolesPath names hfin role rest st
      exact ih _ (by omega)

theorem workLoop_nil (env : Env) (rolesPath : String) (fuel : Nat) (st : ResolveState)
    (hq : st.toProcess = []) : workLoop env rolesPath fuel st = some st := by
  unfold workLoop
  rw [hq]

theorem workLoop_cons (env : Env) (rolesPath : String) (fuel : Nat) (st : ResolveState)
    (role : String) (rest : List String) (hq : st.toProcess = role :: rest) :
    workLoop env rolesPath (fuel + 1) st =
      workLoop env rolesPath fuel (loopBody env rolesPath role rest st) := by
  rw [workLoop]
  rw [hq]

theorem workLoop_zero_cons (env : Env) (rolesPath : String) (st : ResolveState)
    (role : String) (rest : List String) (hq : st.toProcess = role :: rest) :
    workLoop env rolesPath 0 st = none := by
  unfold workLoop
  rw [hq]

theorem workLoop_fuel_mono (env : Env) (rolesPath : String) (fuel : Nat) :
    ∀ (st st1 : ResolveState) (k : Nat), workLoop env rolesPath fuel st = some st1 →
      workLoop env rolesPath (fuel + k) st = some st1 := by
  induction fuel with
  | zero =>
    intro st st1 k h
    cases hq : st.toProcess with
    | nil =>
      rw [workLoop_nil _ _ _ _ hq] at h ⊢
      exact h
    | cons role rest =>
      rw [workLoop_zero_cons _ _ _ _ _ hq] at h
      simp at h
  | succ n ih =>
    intro st st1 k h
    cases hq : st.toProcess with
    | nil =>
      rw [workLoop_nil _ _ _ _ hq] at h ⊢
      exact h
    | cons role rest =>
      have e : n + 1 + k = (n + k) + 1 := by omega
      rw [e, workLoop_cons _ _ _ _ _ _ hq]
      rw [workLoop_cons _ _ _ _ _ _ hq] at h
      exact ih _ _ k h

/-- The fuel that suffices for `getAllDependencies` on `seeds` when all dependency names
lie in `names`. -/
theorem getAllDependencies_some (env : Env) (rolesPath : String) (names seeds : List String)
    (hfin : FiniteSupport env rolesPath names) (fuel : Nat)
    (hfuel : names.length + seeds.length ≤ fuel) :
    ∃ res, getAllDependencies env seeds rolesPath fuel = some res := by
  have hle : unseen names (initState seeds).allDeps ≤ names.length := by
    unfold unseen
    exact List.length_filter_le _ _
  have hq : (initState seeds).toProcess.length = seeds.length := rfl
  obtain ⟨st1, h1⟩ := workLoop_terminates env rolesPath names hfin fuel (initState seeds)
    (by omega)
  unfold getAllDependencies
  rw [h1]
  exact ⟨_, rfl⟩

/-- What a returned result of `getAllDependencies` is made of: a final state of the work
loop that satisfies the invariant and has an empty queue. -/
theorem getAllDependencies_final (env : Env) (rolesPath : String) (seeds : List String)
    (fuel : Nat) (res : ResolveResult)
    (h : getAllDependencies env seeds rolesPath fuel = some res) :
    ∃ st, LoopInv env rolesPath seeds st ∧ st.toProcess = [] ∧ res.allDeps = st.allDeps ∧
      res.lookups = st.lookups ∧ res.enqueued = st.enqueued ∧ res.err = none := by
  unfold getAllDependencies at h
  split at h
  · simp at h
  · rename_i st hst
    simp only [Option.some.injEq] at h
    subst h
    obtain ⟨inv, hq⟩ := workLoop_inv env rolesPath seeds fuel _ _
      (loopInv_init env rolesPath seeds) hst
    exact ⟨st, inv, hq, rfl, rfl, rfl, rfl⟩

/-! ## The warning left by a failed lookup -/

theorem loopBody_log (env : Env) (rolesPath role : String) (rest : List String)
    (st : ResolveState) :
    (∀ e ∈ st.log, e ∈ (loopBody env rolesPath role rest st).log) ∧
      ∀ err, (getDependencies env role rolesPath).1 = .error err →
        LogEvent.dependencyWarning role err ∈ (loopBody env rolesPath role rest st).log := by
  unfold loopBody
  rcases h : getDependencies env role rolesPath with ⟨r, lg⟩
  cases r with
  | error e =>
    constructor
    · intro x hx
      simp [hx]
    · intro err herr
      simp only [Except.error.injEq] at herr
      subst herr
      simp
  | ok deps =>
    constructor
    · intro x hx
      simp [addDeps_eq, hx]
    · intro err herr
      simp at herr

theorem warnInv_step (env : Env) (rolesPath role : String) (rest : List String)
    (st : ResolveState) (inv : WarnInv env rolesPath st.lookups st.log) :
    WarnInv env rolesPath (loopBody env rolesPath role rest st).lookups
      (loopBody env rolesPath role rest st).log := by
  obtain ⟨_, _, hL, _⟩ := loopBody_eq env rolesPath role rest st
  obtain ⟨hsub, hwarn⟩ := loopBody_log env rolesPath role rest st
  intro r hr err herr
  rw [hL, List.mem_append, List.mem_singleton] at hr
  rcases hr with h | h
  · exact hsub _ (inv r h err herr)
  · subst h
    exact hwarn err herr

theorem workLoop_warnInv (env : Env) (rolesPath : String) (fuel : Nat) :
    ∀ st st1, WarnInv env rolesPath st.lookups st.log →
      workLoop env rolesPath fuel st = some st1 → WarnInv env rolesPath st1.lookups st1.log := by
  induction fuel with
  | zero =>
    intro st st1 inv h
    cases hq : st.toProcess with
    | nil =>
      rw [workLoop_nil _ _ _ _ hq] at h
      simp only [Option.some.injEq] at h
      subst h
      exact inv
    | cons role rest =>
      rw [workLoop_zero_cons _ _ _ _ _ hq] at h
      simp at h
  | succ n ih =>
    intro st st1 inv h
    cases hq : st.toProcess with
    | nil =>
      rw [workLoop_nil _ _ _ _ hq] at h
      simp only [Option.some.injEq] at h
      subst h
      exact inv
    | cons role rest =>
      rw [workLoop_cons _ _ _ _ _ _ hq] at h
      exact ih _ _ (warnInv_step env rolesPath role rest st inv) h

theorem getAllDependencies_warned (env : Env) (rolesPath : String) (seeds : List String)
    (fuel : Nat) (res : ResolveResult)
    (h : getAllDependencies env seeds rolesPath fuel = some res) :
    WarnInv env rolesPath res.lookups res.log := by
  unfold getAllDependencies at h
  split at h
  · simp at h
  · rename_i st hst
    simp only [Option.some.injEq] at h
    subst h
    have inv := workLoop_warnInv env rolesPath fuel (initState seeds) st
      (by intro r hr; simp [initState] at hr) hst
    intro r hr err herr
    exact List.mem_append_left _ (inv r hr err herr)

/-! ## The concrete role graphs -/

theorem graphEnv_finite : FiniteSupport graphEnv "roles" ["A", "B", "C", "D", "E"] := by
  intro role d hd
  simp only [depsOf, getDependencies, graphEnv, emptyEnv, errNotExist] at hd
  split_ifs at hd <;> simp at hd <;>
    first
      | (subst hd; simp)
      | (rcases hd with rfl | rfl <;> simp)

theorem deniedEnv_finite : FiniteSupport deniedEnv "roles" ["A", "B", "C", "D", "E"] := by
  intro role d hd
  simp only [depsOf, getDependencies, deniedEnv, graphEnv, emptyEnv, errNotExist,
    errDenied] at hd
  split_ifs at hd <;> simp at hd <;> subst hd <;> simp

theorem emptyEnv_finite : FiniteSupport emptyEnv "roles" [] := by
  intro role d hd
  simp [depsOf, getDependencies, emptyEnv, errNotExist] at hd

theorem depsOf_of_readFile_error (env : Env) (rolesPath role : String) (err : GoError)
    (h : env.readFile (env.join [rolesPath, role, "meta", "main.yml"]) = .error err) :
    depsOf env rolesPath role = [] := by
  unfold depsOf getDependencies
  simp only [h]
  split_ifs <;> rfl

/-! ## Claims about the dependency resolver -/

/-- Claim C2: when all dependency names lie in a finite list, `getAllDependencies`
returns (with fuel for at most one iteration per name and per seed) a map whose keys are
exactly the roles reachable from the seeds by "depends on" steps: it holds every seed, it
is closed under dependencies, and each key is reachable.  A role whose `meta/main.yml`
cannot be read, or does not decode, has no outgoing step. -/
theorem getAllDependencies_closure (env : Env) (rolesPath : String)
    (names seeds : List String) (hfin : FiniteSupport env rolesPath names) (fuel : Nat)
    (hfuel : names.length + seeds.length ≤ fuel) :
    ∃ res, getAllDependencies env seeds rolesPath fuel = some res ∧
      (∀ r, r ∈ res.allDeps ↔ Reachable env rolesPath seeds r) ∧
      (∀ s ∈ seeds, s ∈ res.allDeps) ∧
      (∀ r ∈ res.allDeps, ∀ d ∈ depsOf env rolesPath r, d ∈ res.allDeps) ∧
      (∀ role, (getDependencies env role rolesPath).1 = .ok [] ∨
          (∃ e, (getDependencies env role rolesPath).1 = .error e) →
        depsOf env rolesPath role = []) := by
  obtain ⟨res, hres⟩ := getAllDependencies_some env rolesPath names seeds hfin fuel hfuel
  obtain ⟨st, inv, hq, hA, _, _, _⟩ := getAllDependencies_final env rolesPath seeds fuel res hres
  refine ⟨res, hres, ?_, ?_, ?_, ?_⟩
  · intro r
    rw [hA]
    exact ⟨inv.reachable r, reachable_mem_of_closed env rolesPath seeds st inv hq r⟩
  · rw [hA]
    exact inv.seeds_mem
  · rw [hA]
    intro r hr d hd
    rcases inv.closed r hr with hc | hc
    · rw [hq] at hc
      simp at hc
    · exact hc d hd
  · intro role h
    unfold depsOf
    rcases h with h | ⟨e, h⟩ <;> rw [h]

theorem getAllDependencies_closure_witness :
    FiniteSupport graphEnv "roles" ["A", "B", "C", "D", "E"] ∧
      ∃ res, getAllDependencies graphEnv ["B", "E"] "roles" 7 = some res ∧
        (∀ r, r ∈ res.allDeps ↔ Reachable graphEnv "roles" ["B", "E"] r) := by
  refine ⟨graphEnv_finite, ?_⟩
  obtain ⟨res, h1, h2, _⟩ := getAllDependencies_closure graphEnv "roles"
    ["A", "B", "C", "D", "E"] ["B", "E"] graphEnv_finite 7 (by decide)
  exact ⟨res, h1, h2⟩

/-- Claim C3: when all dependency names lie in a finite list, cyclic graphs included, the
work loop of `getAllDependencies` terminates within one iteration per name and per seed;
on the graph A → B, B → C and D, D → E, C → A with seed A five iterations suffice and
the keys returned are A, B, C, D, E and no others. -/
theorem getAllDependencies_terminates :
    (∀ (env : Env) (rolesPath : String) (names seeds : List String),
        FiniteSupport env rolesPath names → ∀ fuel, names.length + seeds.length ≤ fuel →
          ∃ st, workLoop env rolesPath fuel (initState seeds) = some st ∧
            st.toProcess = [] ∧
            (getAllDependencies env seeds rolesPath fuel).isSome = true) ∧
      (∃ res, getAllDependencies graphEnv ["A"] "roles" 5 = some res ∧
        (∀ r, r ∈ res.allDeps ↔ r ∈ ["A", "B", "C", "D", "E"]) ∧
        "A" ∈ depsOf graphEnv "roles" "C") := by
  constructor
  · intro env rolesPath names seeds hfin fuel hfuel
    have hle : unseen names (initState seeds).allDeps ≤ names.length := by
      unfold unseen
      exact List.length_filter_le _ _
    have hq : (initState seeds).toProcess.length = seeds.length := rfl
    obtain ⟨st, hst⟩ := workLoop_terminates env rolesPath names hfin fuel (initState seeds)
      (by omega)
    obtain ⟨_, hnil⟩ := workLoop_inv env rolesPath seeds fuel _ _
      (loopInv_init env rolesPath seeds) hst
    refine ⟨st, hst, hnil, ?_⟩
    unfold getAllDependencies
    rw [hst]
    rfl
  · obtain ⟨res, hres⟩ := Option.isSome_iff_exists.1
      (show (getAllDependencies graphEnv ["A"] "roles" 5).isSome = true by decide)
    refine ⟨res, hres, ?_, by decide⟩
    have hkeys : (getAllDependencies graphEnv ["A"] "roles" 5).map (fun x => x.allDeps) =
        some ["A", "B", "C", "D", "E"] := by decide
    rw [hres] at hkeys
    simp only [Option.map_some', Option.some.injEq] at hkeys
    intro r
    rw [hkeys]

theorem getAllDependencies_terminates_witness :
    FiniteSupport graphEnv "roles" ["A", "B", "C", "D", "E"] ∧
      ∃ st, workLoop graphEnv "roles" 6 (initState ["C"]) = some st ∧ st.toProcess = [] ∧
        (getAllDependencies graphEnv ["C"] "roles" 6).isSome = true :=
  ⟨graphEnv_finite,
    getAllDependencies_terminates.1 graphEnv "roles" ["A", "B", "C", "D", "E"] ["C"]
      graphEnv_finite 6 (by decide)⟩

/-- Claim C6: every seed is a key of the map `getAllDependencies` returns, whatever the
lookups do; and the map is returned whenever the dependency names are finitely many, in
particular when every lookup is absent or fails. -/
theorem getAllDependencies_seeds (env : Env) (rolesPath : String) (seeds : List String) :
    (∀ fuel res, getAllDependencies env seeds rolesPath fuel = some res →
        ∀ s ∈ seeds, mapGet res.allDeps s = true) ∧
      (∀ names, FiniteSupport env rolesPath names →
        ∀ fuel, names.length + seeds.length ≤ fuel →
          ∃ res, getAllDependencies env seeds rolesPath fuel = some res ∧
            ∀ s ∈ seeds, mapGet res.allDeps s = true) ∧
      ((∀ role, depsOf env rolesPath role = []) →
        ∃ res, getAllDependencies env seeds rolesPath seeds.length = some res ∧
          ∀ s ∈ seeds, mapGet res.allDeps s = true) := by
  have part : ∀ fuel res, getAllDependencies env seeds rolesPath fuel = some res →
      ∀ s ∈ seeds, mapGet res.allDeps s = true := by
    intro fuel res hres s hs
    obtain ⟨st, inv, _, hA, _⟩ := getAllDependencies_final env rolesPath seeds fuel res hres
    rw [hA]
    exact (mapGet_iff _ _).2 (inv.seeds_mem s hs)
  refine ⟨part, ?_, ?_⟩
  · intro names hfin fuel hfuel
    obtain ⟨res, hres⟩ := getAllDependencies_some env rolesPath names seeds hfin fuel hfuel
    exact ⟨res, hres, part fuel res hres⟩
  · intro hnone
    have hfin : FiniteSupport env rolesPath [] := by
      intro role d hd
      rw [hnone role] at hd
      simp at hd
    obtain ⟨res, hres⟩ := getAllDependencies_some env rolesPath [] seeds hfin seeds.length
      (by simp)
    exact ⟨res, hres, part _ res hres⟩

theorem getAllDependencies_seeds_witness :
    FiniteSupport deniedEnv "roles" ["A", "B", "C", "D", "E"] ∧
      ∃ res, getAllDependencies deniedEnv ["A", "zzz"] "roles" 7 = some res ∧
        ∀ s ∈ ["A", "zzz"], mapGet res.allDeps s = true :=
  ⟨deniedEnv_finite,
    (getAllDependencies_seeds deniedEnv "roles" ["A", "zzz"]).2.1 ["A", "B", "C", "D", "E"]
      deniedEnv_finite 7 (by decide)⟩

/-- Claim C7, as the code has it: for a seed list without repeated names, every role of
the returned set was put on the queue exactly once and `getDependencies` was called for it
exactly once, and for no other role at all. -/
theorem getAllDependencies_once (env : Env) (rolesPath : String) (seeds : List String)
    (hnodup : seeds.Nodup) (fuel : Nat) (res : ResolveResult)
    (h : getAllDependencies env seeds rolesPath fuel = some res) :
    (∀ r ∈ res.allDeps, res.enqueued.count r = 1 ∧ res.lookups.count r = 1) ∧
      (∀ r, r ∉ res.allDeps → res.enqueued.count r = 0 ∧ res.lookups.count r = 0) := by
  obtain ⟨st, inv, hq, hA, hL, hE, _⟩ := getAllDependencies_final env rolesPath seeds fuel res h
  have hle : st.lookups = st.enqueued := by
    rw [inv.enq, hq, List.append_nil]
  rw [hA, hL, hE, hle]
  constructor
  · intro r hr
    have hc := inv.count r
    by_cases hs : r ∈ seeds
    · rw [List.count_eq_one_of_mem hnodup hs, if_neg (fun hh => hh.2 hs)] at hc
      exact ⟨hc, hc⟩
    · rw [List.count_eq_zero_of_not_mem hs, if_pos ⟨hr, hs⟩] at hc
      exact ⟨hc, hc⟩
  · intro r hr
    have hc := inv.count r
    have hs : r ∉ seeds := fun hs => hr (inv.seeds_mem r hs)
    rw [List.count_eq_zero_of_not_mem hs, if_neg (fun hh => hr hh.1)] at hc
    exact ⟨hc, hc⟩

theorem getAllDependencies_once_witness :
    ["B", "E"].Nodup ∧
      ∃ res, getAllDependencies graphEnv ["B", "E"] "roles" 5 = some res ∧
        ((∀ r ∈ res.allDeps, res.enqueued.count r = 1 ∧ res.lookups.count r = 1) ∧
          (∀ r, r ∉ res.allDeps → res.enqueued.count r = 0 ∧ res.lookups.count r = 0)) := by
  obtain ⟨res, hres⟩ := Option.isSome_iff_exists.1
    (show (getAllDependencies graphEnv ["B", "E"] "roles" 5).isSome = true by decide)
  exact ⟨by decide, res, hres,
    getAllDependencies_once graphEnv "roles" ["B", "E"] (by decide) 5 res hres⟩

/-- Claim C7 fails as stated: with the seed list A, A and no metadata at all, the call
returns the set holding A alone, yet A was put on the queue twice and looked up twice. -/
theorem duplicate_seed_looked_up_twice :
    (getAllDependencies emptyEnv ["A", "A"] "roles" 2).map
        (fun res => (res.allDeps, res.enqueued.count "A", res.lookups.count "A")) =
      some (["A"], 2, 2) := by
  decide

/-- Claim C8: `getAllDependencies` returns a nil error whenever it returns, and it returns
whenever the dependency names are finitely many.  A role whose lookup fails is skipped:
the iteration only logs the warning, the rest of the queue stays in place, and in the end
every role that was queued has been looked up and every failed lookup has its warning. -/
theorem getAllDependencies_no_error (env : Env) (rolesPath : String) (seeds : List String) :
    (∀ fuel res, getAllDependencies env seeds rolesPath fuel = some res →
        res.err = none ∧ res.lookups = res.enqueued ∧ (∀ s ∈ seeds, s ∈ res.lookups) ∧
          WarnInv env rolesPath res.lookups res.log) ∧
      (∀ names, FiniteSupport env rolesPath names →
        ∀ fuel, names.length + seeds.length ≤ fuel →
          ∃ res, getAllDependencies env seeds rolesPath fuel = some res ∧ res.err = none) ∧
      (∀ (st : ResolveState) (role : String) (rest : List String) (err : GoError)
          (lg : List LogEvent), getDependencies env role rolesPath = (.error err, lg) →
        loopBody env rolesPath role rest st =
          { st with
            toProcess := rest
            lookups := st.lookups ++ [role]
            log := st.log ++ lg ++ [LogEvent.dependencyWarning role err] }) := by
  have part : ∀ fuel res, getAllDependencies env seeds rolesPath fuel = some res →
      res.err = none ∧ res.lookups = res.enqueued ∧ (∀ s ∈ seeds, s ∈ res.lookups) ∧
        WarnInv env rolesPath res.lookups res.log := by
    intro fuel res hres
    obtain ⟨st, inv, hq, hA, hL, hE, herr⟩ :=
      getAllDependencies_final env rolesPath seeds fuel res hres
    have hle : st.lookups = st.enqueued := by
      rw [inv.enq, hq, List.append_nil]
    refine ⟨herr, by rw [hL, hE, hle], ?_, getAllDependencies_warned env rolesPath seeds fuel
      res hres⟩
    intro s hs
    rw [hL, hle]
    have hc := inv.count s
    have hpos : 0 < seeds.count s := List.count_pos_iff.2 hs
    exact List.count_pos_iff.1 (by omega)
  refine ⟨part, ?_, ?_⟩
  · intro names hfin fuel hfuel
    obtain ⟨res, hres⟩ := getAllDependencies_some env rolesPath names seeds hfin fuel hfuel
    exact ⟨res, hres, (part fuel res hres).1⟩
  · intro st role rest err lg hget
    unfold loopBody
    rw [hget]

theorem getAllDependencies_no_error_witness :
    (getDependencies deniedEnv "B" "roles").1 = .error errDenied ∧
      ∃ res, getAllDependencies deniedEnv ["A", "D"] "roles" 4 = some res ∧
        (res.err = none ∧ res.lookups = res.enqueued ∧
          (∀ s ∈ ["A", "D"], s ∈ res.lookups) ∧
            WarnInv deniedEnv "roles" res.lookups res.log) := by
  obtain ⟨res, hres⟩ := Option.isSome_iff_exists.1
    (show (getAllDependencies deniedEnv ["A", "D"] "roles" 4).isSome = true by decide)
  exact ⟨rfl, res, hres,
    (getAllDependencies_no_error deniedEnv "roles" ["A", "D"]).1 4 res hres⟩

/-! ## Claims about single lookups and about the extractor -/

/-- Claim C9, as the code has it: `getDependencies` returns the empty list and no error
when reading `meta/main.yml` fails with an error for which `os.IsNotExist` holds, the
error when the read fails in any other way or the content does not decode, and otherwise,
with no error, the `role` fields of the decoded dependency records, one per record and in
order. -/
theorem getDependencies_spec (env : Env) (roleName rolesPath : String) :
    (∀ err, env.readFile (env.join [rolesPath, roleName, "meta", "main.yml"]) = .error err →
        err.isNotExist = true → (getDependencies env roleName rolesPath).1 = .ok []) ∧
      (∀ err, env.readFile (env.join [rolesPath, roleName, "meta", "main.yml"]) = .error err →
        err.isNotExist = false → (getDependencies env roleName rolesPath).1 = .error err) ∧
      (∀ data err,
        env.readFile (env.join [rolesPath, roleName, "meta", "main.yml"]) = .ok data →
        env.unmarshalMeta data = .error err →
          (getDependencies env roleName rolesPath).1 = .error err) ∧
      (∀ data m,
        env.readFile (env.join [rolesPath, roleName, "meta", "main.yml"]) = .ok data →
        env.unmarshalMeta data = .ok m →
          ∃ deps, (getDependencies env roleName rolesPath).1 = .ok deps ∧
            deps.length = m.dependencies.length ∧
            ∀ i : Nat, deps[i]? = (m.dependencies[i]?).map Dependency.role) := by
  refine ⟨?_, ?_, ?_, ?_⟩
  · intro err h1 h2
    simp [getDependencies, h1, h2]
  · intro err h1 h2
    simp [getDependencies, h1, h2]
  · intro data err h1 h2
    simp [getDependencies, h1, h2]
  · intro data m h1 h2
    refine ⟨m.dependencies.map (fun dep => dep.role), ?_, ?_, ?_⟩
    · simp [getDependencies, h1, h2]
    · simp
    · intro i
      rw [List.getElem?_map]

theorem getDependencies_spec_witness :
    graphEnv.readFile (graphEnv.join ["roles", "B", "meta", "main.yml"]) = .ok "B.meta" ∧
      graphEnv.unmarshalMeta "B.meta" = .ok ⟨[⟨"C"⟩, ⟨"D"⟩]⟩ ∧
      ∃ deps, (getDependencies graphEnv "B" "roles").1 = .ok deps ∧
        deps.length = 2 ∧
        ∀ i : Nat, deps[i]? = (([⟨"C"⟩, ⟨"D"⟩] : List Dependency)[i]?).map Dependency.role :=
  ⟨rfl, rfl, (getDependencies_spec graphEnv "B" "roles").2.2.2 "B.meta" ⟨[⟨"C"⟩, ⟨"D"⟩]⟩ rfl rfl⟩

theorem extractRoleFromPlaybook_fst (item : GoValue) (rolesList : List String) :
    (extractRoleFromPlaybook item rolesList).1 = rolesList ++ entryNames item := by
  cases item with
  | str s => rfl
  | genMap m =>
    simp only [extractRoleFromPlaybook, entryNames]
    split <;> simp
  | null => simp [extractRoleFromPlaybook, entryNames]
  | seq l => simp [extractRoleFromPlaybook, entryNames]
  | strMap l => simp [extractRoleFromPlaybook, entryNames]
  | other t => simp [extractRoleFromPlaybook, entryNames]

theorem extractItems_fst (items : List GoValue) :
    ∀ (roles : List String) (log : List LogEvent),
      (extractItems items (roles, log)).1 = roles ++ itemsNames items := by
  induction items with
  | nil => intro roles log; simp [extractItems, itemsNames]
  | cons item items ih =>
    intro roles log
    simp only [extractItems, itemsNames]
    rw [ih, extractRoleFromPlaybook_fst, List.append_assoc]

theorem extractPlays_fst (plays : List Play) :
    ∀ (i : Nat) (roles : List String) (log : List LogEvent),
      (extractPlays i plays (roles, log)).1 = roles ++ playbookNames plays := by
  induction plays with
  | nil => intro i roles log; simp [extractPlays, playbookNames]
  | cons play plays ih =>
    intro i roles log
    rcases play with ⟨v⟩
    cases v with
    | seq l =>
      simp only [extractPlays, playbookNames, playNames]
      rw [← Prod.mk.eta (p := extractItems l _), ih, extractItems_fst, List.append_assoc]
    | null => simp only [extractPlays, playbookNames, playNames, ih, List.nil_append]
    | str s => simp only [extractPlays, playbookNames, playNames, ih, List.nil_append]
    | strMap m => simp only [extractPlays, playbookNames, playNames, ih, List.nil_append]
    | genMap m => simp only [extractPlays, playbookNames, playNames, ih, List.nil_append]
    | other t => simp only [extractPlays, playbookNames, playNames, ih, List.nil_append]

theorem playbookNames_append (ps qs : List Play) :
    playbookNames (ps ++ qs) = playbookNames ps ++ playbookNames qs := by
  induction ps with
  | nil => simp [playbookNames]
  | cons p ps ih => simp [playbookNames, ih]

/-- Claim C10: the extraction loop of `getPlaybookRoles` yields the concatenation, in play
order, of the names of each play's `roles` entries in entry order.  A play whose `roles`
is missing or is not a list contributes nothing and the plays after it are still
extracted; a plain string entry contributes exactly that string. -/
theorem extractPlays_concat :
    (∀ (plays : List Play) (i : Nat) (log : List LogEvent),
        (extractPlays i plays ([], log)).1 = playbookNames plays) ∧
      (∀ (ps qs : List Play) (p : Play),
        playbookNames (ps ++ p :: qs) = playbookNames ps ++ playNames p ++ playbookNames qs) ∧
      (∀ items : List GoValue, playNames ⟨.seq items⟩ = itemsNames items) ∧
      (∀ (item : GoValue) (items : List GoValue),
        itemsNames (item :: items) = (extractRoleFromPlaybook item []).1 ++ itemsNames items) ∧
      playNames ⟨.null⟩ = [] ∧
      (∀ s, playNames ⟨.str s⟩ = []) ∧
      (∀ m, playNames ⟨.strMap m⟩ = []) ∧
      (∀ m, playNames ⟨.genMap m⟩ = []) ∧
      (∀ t, playNames ⟨.other t⟩ = []) ∧
      (∀ (s : String) (rolesList : List String),
        (extractRoleFromPlaybook (.str s) rolesList).1 = rolesList ++ [s]) := by
  refine ⟨?_, ?_, ?_, ?_, rfl, fun _ => rfl, fun _ => rfl, fun _ => rfl, fun _ => rfl,
    fun _ _ => rfl⟩
  · intro plays i log
    rw [extractPlays_fst, List.nil_append]
  · intro ps qs p
    rw [playbookNames_append, List.append_assoc]
    rfl
  · intro items
    rfl
  · intro item items
    rw [extractRoleFromPlaybook_fst, List.nil_append]
    rfl

/-! ## Claims about role discovery -/

theorem isValidSymlinkToDir_fst (env : Env) (path : String) :
    (isValidSymlinkToDir env path).1 =
      match env.readlink path with
      | .error _ => false
      | .ok target =>
        match env.stat (resolveTarget env path target) with
        | .ok targetInfo => targetInfo.isDir
        | .error _ => false := by
  unfold isValidSymlinkToDir resolveTarget
  cases env.readlink path with
  | error e => rfl
  | ok target =>
    by_cases habs : env.isAbs target = true
    · simp only [habs, Bool.not_true, Bool.false_eq_true, if_false, if_true]
      cases env.stat target <;> rfl
    · simp only [habs, Bool.not_eq_true] at *
      simp only [habs, Bool.not_false, if_true, Bool.false_eq_true, if_false]
      cases env.stat (env.join [env.dir path, target]) <;> rfl

theorem processDirectoryEntry_fst (env : Env) (entry : DirEntry) (absPath : String)
    (roles : List String) :
    (processDirectoryEntry env entry absPath roles).1 =
      if isRoleEntry env absPath entry = true then roles ++ [entry.name] else roles := by
  unfold processDirectoryEntry isRoleEntry isPlainDir isSymlinkToDir
  cases hl : env.lstat (env.join [absPath, entry.name]) with
  | error e => simp [hl]
  | ok fileInfo =>
    by_cases hd : fileInfo.isDir = true
    · simp [hl, hd]
    · by_cases hs : fileInfo.isSymlink = true
      · have hv := isValidSymlinkToDir_fst env (env.join [absPath, entry.name])
        simp only [hl, hd, hs, if_false, if_true, Bool.false_or, Bool.true_and]
        rw [← hv]
        by_cases hb : (isValidSymlinkToDir env (env.join [absPath, entry.name])).1 = true
        · simp [hb]
        · simp only [hb, if_false]
          split_ifs <;> rfl
      · simp [hl, hd, hs]

theorem processEntries_fst (env : Env) (absPath : String) (entries : List DirEntry) :
    ∀ (roles : List String) (log : List LogEvent),
      (processEntries env absPath entries (roles, log)).1 =
        roles ++ (entries.filter (isRoleEntry env absPath)).map DirEntry.name := by
  induction entries with
  | nil => intro roles log; simp [processEntries]
  | cons entry entries ih =>
    intro roles log
    simp only [processEntries]
    rw [ih, processDirectoryEntry_fst, List.filter_cons]
    by_cases h : isRoleEntry env absPath entry = true
    · simp [h]
    · simp [h]

theorem getAllRoles_ok (env : Env) (rolesPath : String) (roles : List String)
    (h : (getAllRoles env rolesPath).1 = .ok roles) :
    ∃ absPath entries, env.abs rolesPath = .ok absPath ∧
      env.readDir absPath = .ok entries ∧
      roles = (entries.filter (isRoleEntry env absPath)).map DirEntry.name := by
  unfold getAllRoles at h
  cases ha : env.abs rolesPath with
  | error e => simp [ha] at h
  | ok absPath =>
    simp only [ha] at h
    cases hs : env.stat absPath with
    | error e => simp [hs] at h
    | ok fileInfo =>
      simp only [hs] at h
      by_cases hd : fileInfo.isDir = true
      · simp only [hd, Bool.not_true, Bool.false_eq_true, if_false] at h
        cases hr : env.readDir absPath with
        | error e => simp [hr] at h
        | ok entries =>
          simp only [hr] at h
          refine ⟨absPath, entries, rfl, hr, ?_⟩
          have hp := processEntries_fst env absPath entries []
            ([LogEvent.scanningRolesDirectory absPath] ++ [LogEvent.foundEntries entries.length])
          rw [List.nil_append] at hp
          rw [← hp]
          simp only [Except.ok.injEq] at h
          exact h.symm
      · simp [hd] at h

/-- Claim C5: when `getAllRoles` succeeds, the list it returns holds the names of the
listed entries that are a plain directory (by `Lstat`) or a symlink whose resolved target
can be statted and is a directory, in listing order, and no other name.  The name is the
entry's own; an entry that is a regular file, a symlink to a missing path or a symlink to
a regular file is left out. -/
theorem getAllRoles_spec (env : Env) (rolesPath : String) (roles : List String)
    (h : (getAllRoles env rolesPath).1 = .ok roles) :
    ∃ absPath entries, env.abs rolesPath = .ok absPath ∧
      env.readDir absPath = .ok entries ∧
      roles = (entries.filter (isRoleEntry env absPath)).map DirEntry.name ∧
      (∀ name, name ∈ roles ↔
        ∃ e ∈ entries, e.name = name ∧
          (isPlainDir env absPath e = true ∨ isSymlinkToDir env absPath e = true)) ∧
      ((entries.map DirEntry.name).Nodup →
        ∀ e ∈ entries, e.name ∈ roles ↔
          (isPlainDir env absPath e = true ∨ isSymlinkToDir env absPath e = true)) := by
  obtain ⟨absPath, entries, ha, hr, hroles⟩ := getAllRoles_ok env rolesPath roles h
  have hmem : ∀ name, name ∈ roles ↔
      ∃ e ∈ entries, e.name = name ∧
        (isPlainDir env absPath e = true ∨ isSymlinkToDir env absPath e = true) := by
    intro name
    rw [hroles, List.mem_map]
    constructor
    · rintro ⟨e, he, hn⟩
      rw [List.mem_filter] at he
      refine ⟨e, he.1, hn, ?_⟩
      have := he.2
      simpa [isRoleEntry] using this
    · rintro ⟨e, he, hn, hq⟩
      refine ⟨e, ?_, hn⟩
      rw [List.mem_filter]
      refine ⟨he, ?_⟩
      simpa [isRoleEntry] using hq
  refine ⟨absPath, entries, ha, hr, hroles, hmem, ?_⟩
  intro hnodup e he
  rw [hmem]
  constructor
  · rintro ⟨e2, he2, hn, hq⟩
    have : e2 = e := List.inj_on_of_nodup_map hnodup he2 he hn
    rw [← this]
    exact hq
  · intro hq
    exact ⟨e, he, rfl, hq⟩

theorem getAllRoles_spec_witness :
    (getAllRoles linkEnv "/t/roles").1 = .ok ["plain-role", "valid-symlink", "rel-symlink"] ∧
      ∃ absPath entries, linkEnv.abs "/t/roles" = .ok absPath ∧
        linkEnv.readDir absPath = .ok entries ∧
        ["plain-role", "valid-symlink", "rel-symlink"] =
          (entries.filter (isRoleEntry linkEnv absPath)).map DirEntry.name := by
  obtain ⟨absPath, entries, h1, h2, h3, _⟩ :=
    getAllRoles_spec linkEnv "/t/roles" ["plain-role", "valid-symlink", "rel-symlink"] rfl
  exact ⟨rfl, absPath, entries, h1, h2, h3⟩

/-! ## The byte-wise order on strings -/

theorem bytesLess_irrefl (a : List Nat) : bytesLess a a = false := by
  induction a with
  | nil => rfl
  | cons x xs ih => simp [bytesLess, ih]

theorem bytesLess_trans (a : List Nat) :
    ∀ b c, bytesLess a b = true → bytesLess b c = true → bytesLess a c = true := by
  induction a with
  | nil =>
    intro b c h1 h2
    cases b with
    | nil => simp [bytesLess] at h1
    | cons y ys =>
      cases c with
      | nil => simp [bytesLess] at h2
      | cons z zs => rfl
  | cons x xs ih =>
    intro b c h1 h2
    cases b with
    | nil => simp [bytesLess] at h1
    | cons y ys =>
      cases c with
      | nil => simp [bytesLess] at h2
      | cons z zs =>
        simp only [bytesLess, Bool.or_eq_true, Bool.and_eq_true, decide_eq_true_eq] at h1 h2 ⊢
        rcases h1 with h1 | ⟨h1, h1r⟩
        · rcases h2 with h2 | ⟨h2, _⟩
          · left; omega
          · left; omega
        · rcases h2 with h2 | ⟨h2, h2r⟩
          · left; omega
          · right
            exact ⟨by omega, ih ys zs h1r h2r⟩

theorem bytesLess_total (a : List Nat) :
    ∀ b, bytesLess a b = false → bytesLess b a = false → a = b := by
  induction a with
  | nil =>
    intro b h1 h2
    cases b with
    | nil => rfl
    | cons y ys => simp [bytesLess] at h1
  | cons x xs ih =>
    intro b h1 h2
    cases b with
    | nil => simp [bytesLess] at h2
    | cons y ys =>
      simp only [bytesLess, Bool.or_eq_false_iff, Bool.and_eq_false_imp, decide_eq_false_iff_not,
        decide_eq_true_eq] at h1 h2
      have hxy : x = y := by omega
      subst hxy
      rw [ih ys (h1.2 rfl) (h2.2 rfl)]

theorem utf8Encode_append_inj (a b : Nat) (x y : List Nat)
    (h : utf8Encode a ++ x = utf8Encode b ++ y) : a = b ∧ x = y := by
  unfold utf8Encode at h
  split_ifs at h <;>
    simp only [List.cons_append, List.nil_append, List.cons.injEq] at h <;>
    first
      | exact ⟨by omega, h.2⟩
      | exact ⟨by omega, h.2.2⟩
      | exact ⟨by omega, h.2.2.2⟩
      | exact ⟨by omega, h.2.2.2.2⟩
      | (exfalso; omega)

theorem Char.toNat_eq (a b : Char) (h : a.toNat = b.toNat) : a = b :=
  Char.eq_of_val_eq (UInt32.eq_of_val_eq (Fin.eq_of_val_eq h))

theorem charsBytes_inj (cs : List Char) : ∀ ds, charsBytes cs = charsBytes ds → cs = ds := by
  induction cs with
  | nil =>
    intro ds h
    cases ds with
    | nil => rfl
    | cons d ds =>
      exfalso
      simp only [charsBytes] at h
      unfold utf8Encode at h
      split_ifs at h <;> simp at h
  | cons c cs ih =>
    intro ds h
    cases ds with
    | nil =>
      exfalso
      simp only [charsBytes] at h
      unfold utf8Encode at h
      split_ifs at h <;> simp at h
    | cons d ds =>
      simp only [charsBytes] at h
      obtain ⟨h1, h2⟩ := utf8Encode_append_inj _ _ _ _ h
      rw [Char.toNat_eq c d h1, ih ds h2]

theorem goBytes_inj (a b : String) (h : goBytes a = goBytes b) : a = b :=
  String.ext (charsBytes_inj _ _ h)

theorem strLess_irrefl (a : String) : strLess a a = false := bytesLess_irrefl _

theorem strLess_trans (a b c : String) (h1 : strLess a b = true) (h2 : strLess b c = true) :
    strLess a c = true := bytesLess_trans _ _ _ h1 h2

theorem strLess_total (a b : String) (h1 : strLess a b = false) (h2 : strLess b a = false) :
    a = b := goBytes_inj a b (bytesLess_total _ _ h1 h2)

theorem strLess_asymm (a b : String) (h1 : strLess a b = true) : strLess b a = false := by
  cases h : strLess b a with
  | false => rfl
  | true =>
    have := strLess_trans a b a h1 h
    rw [strLess_irrefl] at this
    exact absurd this (by simp)

/-! ## `sort.Strings` -/

theorem mem_insertSorted (x y : String) (l : List String) :
    y ∈ insertSorted x l ↔ y = x ∨ y ∈ l := by
  induction l with
  | nil => simp [insertSorted]
  | cons z zs ih =>
    unfold insertSorted
    split
    · simp
    · simp only [List.mem_cons, ih]
      tauto

theorem perm_insertSorted (x : String) (l : List String) : (insertSorted x l).Perm (x :: l) := by
  induction l with
  | nil => simp [insertSorted]
  | cons z zs ih =>
    unfold insertSorted
    split
    · exact List.Perm.refl _
    · exact (List.Perm.cons z ih).trans (List.Perm.swap x z zs)

theorem perm_sortStrings (l : List String) : (sortStrings l).Perm l := by
  induction l with
  | nil => exact List.Perm.refl _
  | cons x xs ih =>
    simp only [sortStrings, List.foldr_cons] at ih ⊢
    exact (perm_insertSorted x _).trans (List.Perm.cons x ih)

theorem mem_sortStrings (y : String) (l : List String) : y ∈ sortStrings l ↔ y ∈ l :=
  (perm_sortStrings l).mem_iff

theorem pairwise_insertSorted (x : String) (l : List String)
    (hl : l.Pairwise (fun a b => strLess a b = true)) (hx : x ∉ l) :
    (insertSorted x l).Pairwise (fun a b => strLess a b = true) := by
  induction l with
  | nil => simp [insertSorted]
  | cons z zs ih =>
    rw [List.pairwise_cons] at hl
    unfold insertSorted
    split
    · rename_i hlt
      rw [List.pairwise_cons]
      refine ⟨?_, List.pairwise_cons.2 hl⟩
      intro a ha
      rcases List.mem_cons.1 ha with h | h
      · rw [h]; exact hlt
      · exact strLess_trans x z a hlt (hl.1 a h)
    · rename_i hlt
      have hne : x ≠ z := fun h => hx (by rw [h]; exact List.mem_cons_self _ _)
      have hzx : strLess z x = true := by
        cases h : strLess z x with
        | true => rfl
        | false => exact absurd (strLess_total x z (by simpa using hlt) h) hne
      rw [List.pairwise_cons]
      refine ⟨?_, ih hl.2 (fun h => hx (List.mem_cons_of_mem _ h))⟩
      intro a ha
      rcases (mem_insertSorted x a zs).1 ha with h | h
      · rw [h]; exact hzx
      · exact hl.1 a h

theorem pairwise_sortStrings (l : List String) (hl : l.Nodup) :
    (sortStrings l).Pairwise (fun a b => strLess a b = true) := by
  induction l with
  | nil => simp [sortStrings]
  | cons x xs ih =>
    rw [List.nodup_cons] at hl
    simp only [sortStrings, List.foldr_cons] at ih ⊢
    exact pairwise_insertSorted x _ (ih hl.2) (fun h => hl.1 ((mem_sortStrings x xs).1 h))

theorem sorted_insertSorted (x : String) (l : List String)
    (hl : l.Pairwise (fun a b => strLess b a = false)) :
    (insertSorted x l).Pairwise (fun a b => strLess b a = false) := by
  induction l with
  | nil => simp [insertSorted]
  | cons z zs ih =>
    rw [List.pairwise_cons] at hl
    unfold insertSorted
    split
    · rename_i hlt
      rw [List.pairwise_cons]
      refine ⟨?_, List.pairwise_cons.2 hl⟩
      intro a ha
      rcases List.mem_cons.1 ha with h | h
      · rw [h]; exact strLess_asymm x z hlt
      · cases hax : strLess a x with
        | false => rfl
        | true =>
          have := strLess_trans a x z hax hlt
          rw [hl.1 a h] at this
          exact absurd this (by simp)
    · rename_i hlt
      rw [List.pairwise_cons]
      refine ⟨?_, ih hl.2⟩
      intro a ha
      rcases (mem_insertSorted x a zs).1 ha with h | h
      · rw [h]; simpa using hlt
      · exact hl.1 a h

theorem sorted_sortStrings (l : List String) :
    (sortStrings l).Pairwise (fun a b => strLess b a = false) := by
  induction l with
  | nil => simp [sortStrings]
  | cons x xs ih =>
    simp only [sortStrings, List.foldr_cons] at ih ⊢
    exact sorted_insertSorted x _ ih

/-- Whatever algorithm `sort.Strings` runs, its result is the one `sortStrings` computes:
an ascending rearrangement of a slice is unique. -/
theorem sortStrings_unique (l out : List String) (hp : out.Perm l)
    (hs : out.Pairwise (fun a b => strLess b a = false)) : out = sortStrings l := by
  haveI : IsAntisymm String (fun a b => strLess b a = false) :=
    ⟨fun a b hab hba => strLess_total a b hba hab⟩
  exact List.eq_of_perm_of_sorted (hp.trans (perm_sortStrings l).symm) hs (sorted_sortStrings l)

theorem eq_of_pairwise_strLess (l1 l2 : List String)
    (h1 : l1.Pairwise (fun a b => strLess a b = true))
    (h2 : l2.Pairwise (fun a b => strLess a b = true)) (hp : l1.Perm l2) : l1 = l2 := by
  haveI : IsAntisymm String (fun a b => strLess a b = true) :=
    ⟨fun a b hab hba => by
      have := strLess_asymm a b hab
      rw [hba] at this
      exact absurd this (by simp)⟩
  exact List.eq_of_perm_of_sorted hp h1 h2

/-! ## Claims about the missing-role detector -/

theorem collectMissing_fst (availableRolesMap : GoMap) (order : List String) :
    ∀ (acc : List String) (log : List LogEvent),
      (collectMissing availableRolesMap order (acc, log)).1 =
        acc ++ order.filter (fun r => !mapGet availableRolesMap r) := by
  induction order with
  | nil => intro acc log; simp [collectMissing]
  | cons r rs ih =>
    intro acc log
    unfold collectMissing
    by_cases h : mapGet availableRolesMap r = true
    · simp [h, ih]
    · simp only [Bool.not_eq_true] at h
      simp [h, ih]

theorem missingStep_fst (order : List String) (availableRolesMap : GoMap) :
    (missingStep order availableRolesMap).1 =
      sortStrings (order.filter (fun r => !mapGet availableRolesMap r)) := by
  unfold missingStep
  have h := collectMissing_fst availableRolesMap order [] []
  rw [List.nil_append] at h
  rw [← h]

theorem mem_missingStep (order : List String) (availableRolesMap : GoMap) (r : String) :
    r ∈ (missingStep order availableRolesMap).1 ↔
      r ∈ order ∧ mapGet availableRolesMap r = false := by
  rw [missingStep_fst, mem_sortStrings, List.mem_filter]
  simp

theorem missingStep_perm (order order2 : List String) (availableRolesMap : GoMap)
    (hnodup : order.Nodup) (hp : order2.Perm order) :
    (missingStep order2 availableRolesMap).1 = (missingStep order availableRolesMap).1 := by
  rw [missingStep_fst, missingStep_fst]
  have hn1 : (order.filter (fun r => !mapGet availableRolesMap r)).Nodup := hnodup.filter _
  have hn2 : (order2.filter (fun r => !mapGet availableRolesMap r)).Nodup :=
    (hp.nodup_iff.2 hnodup).filter _
  refine eq_of_pairwise_strLess _ _ (pairwise_sortStrings _ hn2) (pairwise_sortStrings _ hn1) ?_
  exact (perm_sortStrings _).trans ((hp.filter _).trans (perm_sortStrings _).symm)

/-- Claim C4: for a required set whose keys `range` visits once each, in any order, and
any available set, the list step 4 of `findMissingRoles` computes is strictly ascending
in byte-wise order, hence without repetition; it holds a name exactly when the name is
required and not available; it does not depend on the visiting order.  For the required
set A, B, C, D, E and the available set A, C, E it is B, D. -/
theorem missingStep_sorted :
    (∀ (order : List String) (availableRolesMap : GoMap), order.Nodup →
        (missingStep order availableRolesMap).1.Pairwise (fun a b => strLess a b = true) ∧
        (missingStep order availableRolesMap).1.Nodup ∧
        (∀ r, r ∈ (missingStep order availableRolesMap).1 ↔
          r ∈ order ∧ mapGet availableRolesMap r = false) ∧
        (∀ order2 : List String, order2.Perm order →
          (missingStep order2 availableRolesMap).1 = (missingStep order availableRolesMap).1)) ∧
      (∀ order : List String, order.Perm ["A", "B", "C", "D", "E"] →
        (missingStep order (["A", "C", "E"].foldl mapSetTrue [])).1 = ["B", "D"]) := by
  constructor
  · intro order availableRolesMap hnodup
    have hn1 : (order.filter (fun r => !mapGet availableRolesMap r)).Nodup := hnodup.filter _
    refine ⟨?_, ?_, mem_missingStep order availableRolesMap, ?_⟩
    · rw [missingStep_fst]
      exact pairwise_sortStrings _ hn1
    · rw [missingStep_fst]
      exact (perm_sortStrings _).nodup_iff.2 hn1
    · intro order2 hp
      exact missingStep_perm order order2 availableRolesMap hnodup hp
  · intro order hp
    rw [missingStep_perm ["A", "B", "C", "D", "E"] order _ (by decide) hp]
    decide

theorem missingStep_sorted_witness :
    ["web", "E", "B", "A"].Nodup ∧
      (missingStep ["web", "E", "B", "A"] ["A", "C", "E"]).1 = ["B", "web"] ∧
      (missingStep ["web", "E", "B", "A"] ["A", "C", "E"]).1.Pairwise
        (fun a b => strLess a b = true) :=
  ⟨by decide, by decide,
    (missingStep_sorted.1 ["web", "E", "B", "A"] ["A", "C", "E"] (by decide)).1⟩

/-! ## The whole check -/

theorem siteEnv_finite : FiniteSupport siteEnv "roles" ["A", "B", "C", "E"] := by
  intro role d hd
  simp only [depsOf, getDependencies, siteEnv, emptyEnv, errNotExist] at hd
  split_ifs at hd <;> simp at hd <;> rcases hd with rfl | rfl <;> simp

theorem findMissingRoles_ok (env : Env) (playbookPath rolesPath : String)
    (hrange : ∀ l, (env.rangeOrder l).Perm l) (fuel : Nat) (missing : List String)
    (log : List LogEvent)
    (h : findMissingRoles env playbookPath rolesPath fuel = some (.ok missing, log)) :
    ∃ playbookRoles available,
      (getPlaybookRoles env playbookPath).1 = .ok playbookRoles ∧
      (getAllRoles env rolesPath).1 = .ok available ∧
      ∀ r, r ∈ missing ↔ Reachable env rolesPath playbookRoles r ∧ r ∉ available := by
  unfold findMissingRoles at h
  rcases hp : getPlaybookRoles env playbookPath with ⟨rp, log1⟩
  rw [hp] at h
  cases rp with
  | error e => simp at h
  | ok playbookRoles =>
    rcases ha : getAllRoles env rolesPath with ⟨ra, log2⟩
    simp only [ha] at h
    cases ra with
    | error e => simp at h
    | ok available =>
      simp only at h
      cases hd : getAllDependencies env playbookRoles rolesPath fuel with
      | none => simp [hd] at h
      | some res =>
        obtain ⟨st, inv, hq, hA, _, _, herr⟩ :=
          getAllDependencies_final env rolesPath playbookRoles fuel res hd
        simp only [hd, herr] at h
        simp only [Option.some.injEq, Prod.mk.injEq, Except.ok.injEq] at h
        refine ⟨playbookRoles, available, rfl, rfl, ?_⟩
        intro r
        rw [← h.1, mem_missingStep, (hrange res.allDeps).mem_iff, hA, mapGet_false_iff,
          mem_foldl_mapSetTrue]
        constructor
        · rintro ⟨h1, h2⟩
          exact ⟨inv.reachable r h1, fun hr => h2 (Or.inr hr)⟩
        · rintro ⟨h1, h2⟩
          refine ⟨reachable_mem_of_closed env rolesPath playbookRoles st inv hq r h1, ?_⟩
          rintro (hr | hr)
          · simp at hr
          · exact h2 hr

/-- What `findMissingRoles` computes from the roles `getPlaybookRoles` extracted: when
`range` visits every key of a map once, a list returned without error holds exactly the
roles that are reachable by dependency steps from the extracted roles and that are not
among the roles `getAllRoles` found; it is empty exactly when every role reachable from
the extracted ones is available.  The call does return once the fuel covers the finitely
many dependency names and the playbook roles. -/
theorem findMissingRoles_spec (env : Env) (playbookPath rolesPath : String)
    (hrange : ∀ l, (env.rangeOrder l).Perm l) :
    (∀ fuel missing log,
        findMissingRoles env playbookPath rolesPath fuel = some (.ok missing, log) →
        ∃ playbookRoles available,
          (getPlaybookRoles env playbookPath).1 = .ok playbookRoles ∧
          (getAllRoles env rolesPath).1 = .ok available ∧
          (∀ r, r ∈ missing ↔ Reachable env rolesPath playbookRoles r ∧ r ∉ available) ∧
          (missing = [] ↔ ∀ r, Reachable env rolesPath playbookRoles r → r ∈ available)) ∧
      (∀ names, FiniteSupport env rolesPath names →
        ∃ bound, ∀ fuel, bound ≤ fuel →
          (findMissingRoles env playbookPath rolesPath fuel).isSome = true) := by
  constructor
  · intro fuel missing log h
    obtain ⟨playbookRoles, available, h1, h2, h3⟩ :=
      findMissingRoles_ok env playbookPath rolesPath hrange fuel missing log h
    refine ⟨playbookRoles, available, h1, h2, h3, ?_⟩
    constructor
    · intro hnil r hr
      by_contra hna
      have := (h3 r).2 ⟨hr, hna⟩
      rw [hnil] at this
      simp at this
    · intro hall
      rw [List.eq_nil_iff_forall_not_mem]
      intro r hr
      have := (h3 r).1 hr
      exact this.2 (hall r this.1)
  · intro names hfin
    rcases hp : getPlaybookRoles env playbookPath with ⟨rp, log1⟩
    cases rp with
    | error e =>
      refine ⟨0, fun fuel _ => ?_⟩
      unfold findMissingRoles
      rw [hp]
      rfl
    | ok playbookRoles =>
      rcases ha : getAllRoles env rolesPath with ⟨ra, log2⟩
      cases ra with
      | error e =>
        refine ⟨0, fun fuel _ => ?_⟩
        unfold findMissingRoles
        rw [hp]
        simp only [ha]
        rfl
      | ok available =>
        refine ⟨names.length + playbookRoles.length, fun fuel hfuel => ?_⟩
        obtain ⟨res, hres⟩ :=
          getAllDependencies_some env rolesPath names playbookRoles hfin fuel hfuel
        obtain ⟨_, _, _, _, _, _, herr⟩ :=
          getAllDependencies_final env rolesPath playbookRoles fuel res hres
        unfold findMissingRoles
        rw [hp]
        simp only [ha, hres, herr]
        rfl

theorem findMissingRoles_spec_witness :
    (∀ l, (siteEnv.rangeOrder l).Perm l) ∧
      ∃ log, findMissingRoles siteEnv "site.yml" "roles" 5 = some (.ok ["B", "web"], log) ∧
        ∃ playbookRoles available,
          (getPlaybookRoles siteEnv "site.yml").1 = .ok playbookRoles ∧
          (getAllRoles siteEnv "roles").1 = .ok available ∧
          (∀ r, r ∈ ["B", "web"] ↔ Reachable siteEnv "roles" playbookRoles r ∧ r ∉ available) ∧
          (["B", "web"] = [] ↔ ∀ r, Reachable siteEnv "roles" playbookRoles r → r ∈ available) := by
  have hrange : ∀ l, (siteEnv.rangeOrder l).Perm l := fun l => List.reverse_perm l
  refine ⟨hrange, ((findMissingRoles siteEnv "site.yml" "roles" 5).get (by decide)).2, rfl, ?_⟩
  exact (findMissingRoles_spec siteEnv "site.yml" "roles" hrange).1 5 ["B", "web"] _ rfl

/-! ## Entries of a `roles` list: mappings and unrecognized shapes -/

/-- Claim C11, evaluated on the code: an entry `- role: web`, which `yaml.v3` hands over
as a `map[string]interface{}`, is not appended; it takes the `default` branch and is
logged as an unknown format, whatever its keys.  A mapping that also has
a key that is not a string arrives as a `map[interface{}]interface{}` and has the string
under its `role` key appended. -/
theorem extractRoleFromPlaybook_strMap :
    extractRoleFromPlaybook (.strMap [("role", .str "web")]) ["A"] =
        (["A"], [LogEvent.unknownRoleFormat "map[string]interface {}"]) ∧
      (∀ (m : List (String × GoValue)) (rolesList : List String),
        extractRoleFromPlaybook (.strMap m) rolesList =
          (rolesList, [LogEvent.unknownRoleFormat "map[string]interface {}"])) ∧
      extractRoleFromPlaybook
          (.genMap [(.str "role", .str "web"), (.other "int", .str "x")]) ["A"] =
        (["A", "web"], [LogEvent.foundRoleMap "web"]) :=
  ⟨rfl, fun _ _ => rfl, rfl⟩

/-- What the code does with an entry that is neither a plain string nor a general mapping
with a string under `role`: the role list is unchanged and the entries after it are still
extracted; the entry is logged as an unknown format when it is not a
`map[interface{}]interface{}`. -/
theorem extractRoleFromPlaybook_unrecognized (item : GoValue) (rolesList : List String)
    (h : isRecognized item = false) :
    (extractRoleFromPlaybook item rolesList).1 = rolesList ∧
      (isGenMap item = false →
        (extractRoleFromPlaybook item rolesList).2 =
          [LogEvent.unknownRoleFormat (typeName item)]) ∧
      (∀ (items : List GoValue) (log : List LogEvent),
        (extractItems (item :: items) (rolesList, log)).1 = rolesList ++ itemsNames items) := by
  have hnames : entryNames item = [] := by
    cases item with
    | str s => simp [isRecognized] at h
    | genMap m =>
      simp only [isRecognized] at h
      simp only [entryNames]
      split
      · rename_i roleName hk
        rw [hk] at h
        simp at h
      · rfl
    | null => rfl
    | seq l => rfl
    | strMap m => rfl
    | other t => rfl
  refine ⟨?_, ?_, ?_⟩
  · rw [extractRoleFromPlaybook_fst, hnames, List.append_nil]
  · intro hg
    cases item with
    | str s => simp [isRecognized] at h
    | genMap m => simp [isGenMap] at hg
    | null => rfl
    | seq l => rfl
    | strMap m => rfl
    | other t => rfl
  · intro items log
    rw [extractItems_fst]
    simp only [itemsNames, hnames, List.nil_append]

theorem extractRoleFromPlaybook_unrecognized_witness :
    isRecognized (.strMap [("name", .str "x")]) = false ∧
      (extractRoleFromPlaybook (.strMap [("name", .str "x")]) ["A"]).1 = ["A"] ∧
      (isGenMap (.strMap [("name", .str "x")]) = false →
        (extractRoleFromPlaybook (.strMap [("name", .str "x")]) ["A"]).2 =
          [LogEvent.unknownRoleFormat (typeName (.strMap [("name", .str "x")]))]) ∧
      (∀ (items : List GoValue) (log : List LogEvent),
        (extractItems (.strMap [("name", .str "x")] :: items) (["A"], log)).1 =
          ["A"] ++ itemsNames items) :=
  ⟨rfl, extractRoleFromPlaybook_unrecognized (.strMap [("name", .str "x")]) ["A"] rfl⟩

/-- Claim C17, evaluated on the code: the mapping `{1: x}`, a
`map[interface{}]interface{}` without a `role` key, leaves the role list unchanged and
does not stop the entries after it, but it is skipped without any log entry: the map
branch has no `else`.  The scalar `1`, which takes the `default` branch, is logged as an
unknown format. -/
theorem genMap_without_role_is_silent :
    isRecognized (.genMap [(.other "int", .str "x")]) = false ∧
      extractRoleFromPlaybook (.genMap [(.other "int", .str "x")]) ["A"] = (["A"], []) ∧
      extractItems [.genMap [(.other "int", .str "x")], .str "B"] (["A"], []) =
        (["A", "B"], [LogEvent.foundRoleString "B"]) ∧
      extractRoleFromPlaybook (.other "int") ["A"] =
        (["A"], [LogEvent.unknownRoleFormat "int"]) :=
  ⟨rfl, rfl, rfl, rfl⟩

/-! ## Role discovery: failure, symlink targets, diagnostics -/

theorem getAllRoles_of_listing (env : Env) (rolesPath absPath : String) (fileInfo : FileInfo)
    (entries : List DirEntry) (ha : env.abs rolesPath = .ok absPath)
    (hs : env.stat absPath = .ok fileInfo) (hd : fileInfo.isDir = true)
    (hr : env.readDir absPath = .ok entries) :
    (getAllRoles env rolesPath).1 =
      .ok ((entries.filter (isRoleEntry env absPath)).map DirEntry.name) := by
  have hp := processEntries_fst env absPath entries []
    ([LogEvent.scanningRolesDirectory absPath] ++ [LogEvent.foundEntries entries.length])
  rw [List.nil_append] at hp
  unfold getAllRoles
  simp only [ha, hs, hd, hr, Bool.not_true, Bool.false_eq_true, if_false]
  rw [← hp]

/-- Claim C12, as the code has it: `getAllRoles` returns an error exactly when the roles
path cannot be made absolute, the directory cannot be statted, it is not a directory, or
it cannot be listed.  Once these four steps succeed the call succeeds whatever `Lstat`,
`Readlink` and `Stat` say about the entries: an entry that cannot be inspected, a broken
symlink or a non-directory is only left out. -/
theorem getAllRoles_error_iff (env : Env) (rolesPath : String) :
    ((∃ e, (getAllRoles env rolesPath).1 = .error e) ↔
        (∃ e, env.abs rolesPath = .error e) ∨
          ∃ absPath, env.abs rolesPath = .ok absPath ∧
            ((∃ e, env.stat absPath = .error e) ∨
              (∃ fileInfo, env.stat absPath = .ok fileInfo ∧ fileInfo.isDir = false) ∨
              (∃ e, env.readDir absPath = .error e))) ∧
      (∀ (absPath : String) (fileInfo : FileInfo) (entries : List DirEntry),
        env.abs rolesPath = .ok absPath → env.stat absPath = .ok fileInfo →
        fileInfo.isDir = true → env.readDir absPath = .ok entries →
          (getAllRoles env rolesPath).1 =
            .ok ((entries.filter (isRoleEntry env absPath)).map DirEntry.name)) := by
  refine ⟨?_, fun absPath fileInfo entries ha hs hd hr =>
    getAllRoles_of_listing env rolesPath absPath fileInfo entries ha hs hd hr⟩
  cases ha : env.abs rolesPath with
  | error e =>
    constructor
    · intro _
      exact Or.inl ⟨e, rfl⟩
    · intro _
      exact ⟨errorf "error resolving absolute path: " e, by simp [getAllRoles, ha]⟩
  | ok absPath =>
    cases hs : env.stat absPath with
    | error e =>
      constructor
      · intro _
        exact Or.inr ⟨absPath, rfl, Or.inl ⟨e, hs⟩⟩
      · intro _
        exact ⟨errorf "error accessing roles directory: " e, by simp [getAllRoles, ha, hs]⟩
    | ok fileInfo =>
      by_cases hd : fileInfo.isDir = true
      · cases hr : env.readDir absPath with
        | error e =>
          constructor
          · intro _
            exact Or.inr ⟨absPath, rfl, Or.inr (Or.inr ⟨e, hr⟩)⟩
          · intro _
            exact ⟨errorf "error reading roles irectory: " e,
              by simp [getAllRoles, ha, hs, hd, hr]⟩
        | ok entries =>
          have hok := getAllRoles_of_listing env rolesPath absPath fileInfo entries ha hs hd hr
          constructor
          · rintro ⟨e, he⟩
            rw [hok] at he
            simp at he
          · rintro (⟨e, he⟩ | ⟨absPath2, he, h2⟩)
            · simp at he
            · simp only [Except.ok.injEq] at he
              subst he
              rcases h2 with ⟨e, h2⟩ | ⟨fi, h2, h3⟩ | ⟨e, h2⟩
              · rw [hs] at h2
                simp at h2
              · rw [hs] at h2
                simp only [Except.ok.injEq] at h2
                subst h2
                rw [hd] at h3
                simp at h3
              · rw [hr] at h2
                simp at h2
      · have hd2 : fileInfo.isDir = false := by simpa using hd
        constructor
        · intro _
          exact Or.inr ⟨absPath, rfl, Or.inr (Or.inl ⟨fileInfo, hs, hd2⟩)⟩
        · intro _
          exact ⟨⟨false, "roles path is not a directory"⟩, by simp [getAllRoles, ha, hs, hd2]⟩

theorem getAllRoles_error_iff_witness :
    linkEnv.abs "/t/roles" = .ok "/t/roles" ∧
      linkEnv.stat "/t/roles" = .ok ⟨true, false⟩ ∧
      linkEnv.lstat "/t/roles/missing" = .error errNotExist ∧
      (getAllRoles linkEnv "/t/roles").1 =
        .ok ((([⟨"plain-role"⟩, ⟨"valid-symlink"⟩, ⟨"broken-symlink"⟩, ⟨"non-dir-symlink"⟩,
          ⟨"rel-symlink"⟩, ⟨"README"⟩] : List DirEntry).filter
            (isRoleEntry linkEnv "/t/roles")).map DirEntry.name) :=
  ⟨rfl, rfl, rfl,
    (getAllRoles_error_iff linkEnv "/t/roles").2 "/t/roles" ⟨true, false⟩ _ rfl rfl rfl rfl⟩

/-- Claim C12 fails as stated: where `filepath.Abs` fails, `getAllRoles` returns an error
although the directory `roles` can be statted, is a directory and can be listed. -/
theorem getAllRoles_fails_on_abs :
    (getAllRoles noCwdEnv "roles").1 =
        .error (errorf "error resolving absolute path: "
          ⟨false, "getwd: no such file or directory"⟩) ∧
      noCwdEnv.stat "roles" = .ok ⟨true, false⟩ ∧
      noCwdEnv.readDir "roles" = .ok [] :=
  ⟨rfl, rfl, rfl⟩

theorem isValidSymlinkToDir_eq (env : Env) (p t : String) (h : env.readlink p = .ok t) :
    isValidSymlinkToDir env p =
      match env.stat (resolveTarget env p t) with
      | .ok targetInfo => (targetInfo.isDir, resolveTarget env p t)
      | .error _ => (false, resolveTarget env p t) := by
  unfold isValidSymlinkToDir resolveTarget
  simp only [h]
  by_cases habs : env.isAbs t = true
  · simp only [habs, Bool.not_true, Bool.false_eq_true, if_false, if_true]
    cases env.stat t <;> rfl
  · have habs2 : env.isAbs t = false := by simpa using habs
    simp only [habs2, Bool.not_false, if_true, Bool.false_eq_true, if_false]
    cases env.stat (env.join [env.dir p, t]) <;> rfl

/-- Claim C16: for a symlink path `p` with readable target `t`, `isValidSymlinkToDir`
stats `t` itself when `t` is absolute and `Join(Dir(p), t)` when it is not; what `os.Stat`
says about any other path has no influence; and the result is `true` exactly when the
stat of that path succeeds and reports a directory. -/
theorem isValidSymlinkToDir_spec (env : Env) (p t : String) (h : env.readlink p = .ok t) :
    (env.isAbs t = true → resolveTarget env p t = t) ∧
      (env.isAbs t = false → resolveTarget env p t = env.join [env.dir p, t]) ∧
      (isValidSymlinkToDir env p =
        match env.stat (resolveTarget env p t) with
        | .ok targetInfo => (targetInfo.isDir, resolveTarget env p t)
        | .error _ => (false, resolveTarget env p t)) ∧
      (∀ stat2 : String → Except GoError FileInfo,
        stat2 (resolveTarget env p t) = env.stat (resolveTarget env p t) →
          isValidSymlinkToDir { env with stat := stat2 } p = isValidSymlinkToDir env p) ∧
      ((isValidSymlinkToDir env p).1 = true ↔
        ∃ targetInfo, env.stat (resolveTarget env p t) = .ok targetInfo ∧
          targetInfo.isDir = true) := by
  have heq := isValidSymlinkToDir_eq env p t h
  refine ⟨?_, ?_, heq, ?_, ?_⟩
  · intro habs
    simp [resolveTarget, habs]
  · intro habs
    simp [resolveTarget, habs]
  · intro stat2 hstat
    have h2 := isValidSymlinkToDir_eq { env with stat := stat2 } p t h
    have hres : resolveTarget { env with stat := stat2 } p t = resolveTarget env p t := rfl
    rw [hres] at h2
    simp only at h2
    rw [h2, heq, hstat]
  · rw [heq]
    cases hs : env.stat (resolveTarget env p t) with
    | error e => simp
    | ok targetInfo => simp

theorem isValidSymlinkToDir_spec_witness :
    linkEnv.readlink "/t/roles/rel-symlink" = .ok "../real-roles/valid-role" ∧
      linkEnv.isAbs "../real-roles/valid-role" = false ∧
      resolveTarget linkEnv "/t/roles/rel-symlink" "../real-roles/valid-role" =
        "/t/roles/../real-roles/valid-role" ∧
      linkEnv.stat "../real-roles/valid-role" = .error errNotExist ∧
      isValidSymlinkToDir linkEnv "/t/roles/rel-symlink" =
        (true, "/t/roles/../real-roles/valid-role") :=
  ⟨rfl, rfl,
    ((isValidSymlinkToDir_spec linkEnv "/t/roles/rel-symlink" "../real-roles/valid-role"
      rfl).2.1 rfl).trans rfl,
    rfl, rfl⟩

/-- The diagnostic a symlink entry with a readable target draws when it is not accepted:
always "points to ... which is not a directory", also when the target cannot be statted,
unless the resolved path is the empty string. -/
theorem processDirectoryEntry_symlink_log (env : Env) (entry : DirEntry) (absPath : String)
    (roles : List String) (t : String)
    (hl : env.lstat (env.join [absPath, entry.name]) = .ok ⟨false, true⟩)
    (hr : env.readlink (env.join [absPath, entry.name]) = .ok t)
    (hne : resolveTarget env (env.join [absPath, entry.name]) t ≠ "")
    (hv : (isValidSymlinkToDir env (env.join [absPath, entry.name])).1 = false) :
    processDirectoryEntry env entry absPath roles =
      (roles, [LogEvent.symlinkNotDirectory entry.name
        (resolveTarget env (env.join [absPath, entry.name]) t)]) := by
  have heq := isValidSymlinkToDir_eq env (env.join [absPath, entry.name]) t hr
  have h2 : (isValidSymlinkToDir env (env.join [absPath, entry.name])).2 =
      resolveTarget env (env.join [absPath, entry.name]) t := by
    rw [heq]
    cases env.stat (resolveTarget env (env.join [absPath, entry.name]) t) <;> rfl
  unfold processDirectoryEntry
  simp only [hl, Bool.false_eq_true, if_false, if_true]
  rw [← Prod.mk.eta (p := isValidSymlinkToDir env (env.join [absPath, entry.name])), hv, h2]
  simp [hne]

/-- Claim C18, evaluated on the code: the symlink `broken-symlink`, whose target cannot
be statted, is left out of the role list but takes the "points to ... which is not a
directory" branch, as does `non-dir-symlink`; the "broken symlink" branch is only reached
when `os.Readlink` itself fails. -/
theorem processDirectoryEntry_broken_symlink :
    linkEnv.lstat "/t/roles/broken-symlink" = .ok ⟨false, true⟩ ∧
      linkEnv.readlink "/t/roles/broken-symlink" = .ok "/t/real-roles/nonexistent" ∧
      linkEnv.stat "/t/real-roles/nonexistent" = .error errNotExist ∧
      processDirectoryEntry linkEnv ⟨"broken-symlink"⟩ "/t/roles" ["plain-role"] =
        (["plain-role"],
          [LogEvent.symlinkNotDirectory "broken-symlink" "/t/real-roles/nonexistent"]) ∧
      processDirectoryEntry linkEnv ⟨"non-dir-symlink"⟩ "/t/roles" ["plain-role"] =
        (["plain-role"],
          [LogEvent.symlinkNotDirectory "non-dir-symlink" "/t/real-roles/non-dir-role"]) ∧
      processDirectoryEntry { linkEnv with readlink := fun _ => .error errDenied }
          ⟨"broken-symlink"⟩ "/t/roles" ["plain-role"] =
        (["plain-role"], [LogEvent.brokenSymlink "broken-symlink"]) :=
  ⟨rfl, rfl, rfl, rfl, rfl, rfl⟩

/-! ## The returned set as a closure -/

theorem getAllDependencies_keys (env : Env) (rolesPath : String) (seeds : List String)
    (fuel : Nat) (res : ResolveResult)
    (h : getAllDependencies env seeds rolesPath fuel = some res) (r : String) :
    r ∈ res.allDeps ↔ Reachable env rolesPath seeds r := by
  obtain ⟨st, inv, hq, hA, _⟩ := getAllDependencies_final env rolesPath seeds fuel res h
  rw [hA]
  exact ⟨inv.reachable r, reachable_mem_of_closed env rolesPath seeds st inv hq r⟩

theorem reachable_of_seeds_reachable (env : Env) (rolesPath : String) (S T : List String)
    (hST : ∀ s ∈ S, Reachable env rolesPath T s) (r : String)
    (hr : Reachable env rolesPath S r) : Reachable env rolesPath T r := by
  induction hr with
  | seed h => exact hST _ h
  | step _ hd ih => exact Reachable.step ih hd

theorem reachable_append (env : Env) (rolesPath : String) (S T : List String) (r : String) :
    Reachable env rolesPath (S ++ T) r ↔
      Reachable env rolesPath S r ∨ Reachable env rolesPath T r := by
  constructor
  · intro hr
    induction hr with
    | seed h =>
      rcases List.mem_append.1 h with h | h
      · exact Or.inl (Reachable.seed h)
      · exact Or.inr (Reachable.seed h)
    | step _ hd ih =>
      rcases ih with ih | ih
      · exact Or.inl (Reachable.step ih hd)
      · exact Or.inr (Reachable.step ih hd)
  · rintro (hr | hr)
    · exact reachable_of_seeds_reachable env rolesPath S (S ++ T)
        (fun s hs => Reachable.seed (List.mem_append_left _ hs)) r hr
    · exact reachable_of_seeds_reachable env rolesPath T (S ++ T)
        (fun s hs => Reachable.seed (List.mem_append_right _ hs)) r hr

theorem workLoop_leaves (env : Env) (rolesPath : String) (n : Nat) :
    ∀ st : ResolveState, st.toProcess.length = n →
      (∀ r ∈ st.toProcess, depsOf env rolesPath r = []) →
        ∃ st1, workLoop env rolesPath n st = some st1 ∧ st1.allDeps = st.allDeps := by
  induction n with
  | zero =>
    intro st hlen _
    have hq : st.toProcess = [] := List.length_eq_zero.1 hlen
    exact ⟨st, workLoop_nil _ _ _ _ hq, rfl⟩
  | succ n ih =>
    intro st hlen hleaf
    cases hq : st.toProcess with
    | nil =>
      rw [hq] at hlen
      simp at hlen
    | cons role rest =>
      obtain ⟨hA, hT, _, _⟩ := loopBody_eq env rolesPath role rest st
      have hrole : depsOf env rolesPath role = [] :=
        hleaf role (by rw [hq]; exact List.mem_cons_self _ _)
      rw [hrole] at hA hT
      simp only [newDeps, List.append_nil] at hA hT
      rw [hq, List.length_cons] at hlen
      obtain ⟨st1, h1, h2⟩ := ih (loopBody env rolesPath role rest st)
        (by rw [hT]; omega)
        (by
          intro r hr
          rw [hT] at hr
          exact hleaf r (by rw [hq]; exact List.mem_cons_of_mem _ hr))
      refine ⟨st1, ?_, by rw [h2, hA]⟩
      rw [workLoop_cons _ _ _ _ _ _ hq]
      exact h1

/-! ## Claims about entry points, leaves and unions of seeds -/

/-- Claim C13: two seed lists each of which lies in the set returned for the other get
the same set, whatever the lookups; both calls do return when the dependency names are
finitely many.  On the graph A → B, B → C and D, D → E, C → A the seeds B, E and the seed
C both give A, B, C, D, E. -/
theorem getAllDependencies_entry_points :
    (∀ (env : Env) (rolesPath : String) (S T : List String) (fuelS fuelT : Nat)
        (resS resT : ResolveResult),
        getAllDependencies env S rolesPath fuelS = some resS →
        getAllDependencies env T rolesPath fuelT = some resT →
        (∀ t ∈ T, t ∈ resS.allDeps) → (∀ s ∈ S, s ∈ resT.allDeps) →
          ∀ r, r ∈ resS.allDeps ↔ r ∈ resT.allDeps) ∧
      (∀ (env : Env) (rolesPath : String) (names S T : List String),
        FiniteSupport env rolesPath names →
          ∀ fuel, names.length + S.length + T.length ≤ fuel →
            (getAllDependencies env S rolesPath fuel).isSome = true ∧
              (getAllDependencies env T rolesPath fuel).isSome = true) ∧
      (getAllDependencies graphEnv ["B", "E"] "roles" 5).map
          (fun res => sortStrings res.allDeps) = some ["A", "B", "C", "D", "E"] ∧
      (getAllDependencies graphEnv ["C"] "roles" 5).map
          (fun res => sortStrings res.allDeps) = some ["A", "B", "C", "D", "E"] := by
  refine ⟨?_, ?_, by decide, by decide⟩
  · intro env rolesPath S T fuelS fuelT resS resT hS hT hTS hST r
    rw [getAllDependencies_keys env rolesPath S fuelS resS hS,
      getAllDependencies_keys env rolesPath T fuelT resT hT]
    constructor
    · exact reachable_of_seeds_reachable env rolesPath S T
        (fun s hs => (getAllDependencies_keys env rolesPath T fuelT resT hT s).1 (hST s hs)) r
    · exact reachable_of_seeds_reachable env rolesPath T S
        (fun t ht => (getAllDependencies_keys env rolesPath S fuelS resS hS t).1 (hTS t ht)) r
  · intro env rolesPath names S T hfin fuel hfuel
    obtain ⟨rS, hS⟩ := getAllDependencies_some env rolesPath names S hfin fuel (by omega)
    obtain ⟨rT, hT⟩ := getAllDependencies_some env rolesPath names T hfin fuel (by omega)
    rw [hS, hT]
    exact ⟨rfl, rfl⟩

theorem getAllDependencies_entry_points_witness :
    ∃ resS resT, getAllDependencies graphEnv ["B", "E"] "roles" 5 = some resS ∧
      getAllDependencies graphEnv ["C"] "roles" 6 = some resT ∧
      ∀ r, r ∈ resS.allDeps ↔ r ∈ resT.allDeps := by
  obtain ⟨resS, hS⟩ := Option.isSome_iff_exists.1
    (show (getAllDependencies graphEnv ["B", "E"] "roles" 5).isSome = true by decide)
  obtain ⟨resT, hT⟩ := Option.isSome_iff_exists.1
    (show (getAllDependencies graphEnv ["C"] "roles" 6).isSome = true by decide)
  have hC : (getAllDependencies graphEnv ["B", "E"] "roles" 5).map
      (fun res => decide ("C" ∈ res.allDeps)) = some true := by decide
  have hBE : (getAllDependencies graphEnv ["C"] "roles" 6).map
      (fun res => decide ("B" ∈ res.allDeps) && decide ("E" ∈ res.allDeps)) = some true := by
    decide
  rw [hS] at hC
  rw [hT] at hBE
  simp only [Option.map_some', Option.some.injEq, decide_eq_true_eq, Bool.and_eq_true] at hC hBE
  refine ⟨resS, resT, hS, hT,
    getAllDependencies_entry_points.1 graphEnv "roles" ["B", "E"] ["C"] 5 6 resS resT hS hT
      ?_ ?_⟩
  · intro t ht
    simp only [List.mem_singleton] at ht
    rw [ht]
    exact hC
  · intro s hs
    simp only [List.mem_cons, List.mem_singleton, List.not_mem_nil, or_false] at hs
    rcases hs with rfl | rfl
    · exact hBE.1
    · exact hBE.2

/-- Claim C14: when no seed has a dependency, `getAllDependencies` returns, after one
iteration per seed, the map whose keys are the seeds and nothing else; from the seed E of
the test graph, which has no `meta/main.yml`, it returns the single key E. -/
theorem getAllDependencies_leaves :
    (∀ (env : Env) (rolesPath : String) (seeds : List String),
        (∀ s ∈ seeds, depsOf env rolesPath s = []) →
          ∀ fuel, seeds.length ≤ fuel →
            ∃ res, getAllDependencies env seeds rolesPath fuel = some res ∧
              res.allDeps = seeds.foldl mapSetTrue [] ∧
              ∀ r, r ∈ res.allDeps ↔ r ∈ seeds) ∧
      (getDependencies graphEnv "E" "roles").1 = .ok [] ∧
      (getAllDependencies graphEnv ["E"] "roles" 1).map (fun res => res.allDeps) =
        some ["E"] := by
  refine ⟨?_, rfl, by decide⟩
  intro env rolesPath seeds hleaf fuel hfuel
  obtain ⟨st1, h1, h2⟩ := workLoop_leaves env rolesPath seeds.length (initState seeds) rfl hleaf
  have h3 := workLoop_fuel_mono env rolesPath seeds.length (initState seeds) st1
    (fuel - seeds.length) h1
  have e : seeds.length + (fuel - seeds.length) = fuel := by omega
  rw [e] at h3
  refine ⟨_, by unfold getAllDependencies; rw [h3], ?_, ?_⟩
  · exact h2
  · intro r
    simp only [h2, initState]
    rw [mem_foldl_mapSetTrue]
    simp

theorem getAllDependencies_leaves_witness :
    (∀ s ∈ ["E", "zzz"], depsOf graphEnv "roles" s = []) ∧
      ∃ res, getAllDependencies graphEnv ["E", "zzz"] "roles" 2 = some res ∧
        res.allDeps = ["E", "zzz"].foldl mapSetTrue [] ∧
        ∀ r, r ∈ res.allDeps ↔ r ∈ ["E", "zzz"] := by
  have hleaf : ∀ s ∈ ["E", "zzz"], depsOf graphEnv "roles" s = [] := by
    intro s hs
    simp only [List.mem_cons, List.mem_singleton, List.not_mem_nil, or_false] at hs
    rcases hs with rfl | rfl <;> rfl
  exact ⟨hleaf, getAllDependencies_leaves.1 graphEnv "roles" ["E", "zzz"] hleaf 2 (by decide)⟩

/-- Claim C19: with finitely many dependency names, the set returned for the seeds
`S ++ T` is the union of the sets returned for `S` and for `T`.  Hence the set grows with
the seeds, and seed lists with the same members, in any order and multiplicity, get the
same set. -/
theorem getAllDependencies_union (env : Env) (rolesPath : String) (names S T : List String)
    (hfin : FiniteSupport env rolesPath names) (fuel : Nat)
    (hfuel : names.length + S.length + T.length ≤ fuel) :
    ∃ resST resS resT,
      getAllDependencies env (S ++ T) rolesPath fuel = some resST ∧
      getAllDependencies env S rolesPath fuel = some resS ∧
      getAllDependencies env T rolesPath fuel = some resT ∧
      (∀ r, r ∈ resST.allDeps ↔ r ∈ resS.allDeps ∨ r ∈ resT.allDeps) ∧
      (∀ r, r ∈ resS.allDeps → r ∈ resST.allDeps) ∧
      (∀ (S2 : List String) (fuel2 : Nat) (res2 : ResolveResult),
        (∀ x, x ∈ S2 ↔ x ∈ S) → getAllDependencies env S2 rolesPath fuel2 = some res2 →
          ∀ r, r ∈ res2.allDeps ↔ r ∈ resS.allDeps) := by
  obtain ⟨rST, hST⟩ := getAllDependencies_some env rolesPath names (S ++ T) hfin fuel
    (by rw [List.length_append]; omega)
  obtain ⟨rS, hS⟩ := getAllDependencies_some env rolesPath names S hfin fuel (by omega)
  obtain ⟨rT, hT⟩ := getAllDependencies_some env rolesPath names T hfin fuel (by omega)
  have hunion : ∀ r, r ∈ rST.allDeps ↔ r ∈ rS.allDeps ∨ r ∈ rT.allDeps := by
    intro r
    rw [getAllDependencies_keys env rolesPath (S ++ T) fuel rST hST,
      getAllDependencies_keys env rolesPath S fuel rS hS,
      getAllDependencies_keys env rolesPath T fuel rT hT]
    exact reachable_append env rolesPath S T r
  refine ⟨rST, rS, rT, hST, hS, hT, hunion, fun r hr => (hunion r).2 (Or.inl hr), ?_⟩
  intro S2 fuel2 res2 hmem h2 r
  rw [getAllDependencies_keys env rolesPath S2 fuel2 res2 h2,
    getAllDependencies_keys env rolesPath S fuel rS hS]
  constructor
  · exact reachable_of_seeds_reachable env rolesPath S2 S
      (fun s hs => Reachable.seed ((hmem s).1 hs)) r
  · exact reachable_of_seeds_reachable env rolesPath S S2
      (fun s hs => Reachable.seed ((hmem s).2 hs)) r

theorem getAllDependencies_union_witness :
    FiniteSupport graphEnv "roles" ["A", "B", "C", "D", "E"] ∧
      ∃ resST resS resT,
        getAllDependencies graphEnv (["D"] ++ ["zzz", "D"]) "roles" 8 = some resST ∧
        getAllDependencies graphEnv ["D"] "roles" 8 = some resS ∧
        getAllDependencies graphEnv ["zzz", "D"] "roles" 8 = some resT ∧
        (∀ r, r ∈ resST.allDeps ↔ r ∈ resS.allDeps ∨ r ∈ resT.allDeps) := by
  obtain ⟨a, b, c, h1, h2, h3, h4, _⟩ := getAllDependencies_union graphEnv "roles"
    ["A", "B", "C", "D", "E"] ["D"] ["zzz", "D"] graphEnv_finite 8 (by decide)
  exact ⟨graphEnv_finite, a, b, c, h1, h2, h3, h4⟩

/-! ## The states the work loop passes through -/

theorem stateAfter_nil (env : Env) (rolesPath : String) (n : Nat) (st : ResolveState)
    (hq : st.toProcess = []) : stateAfter env rolesPath n st = st := by
  cases n with
  | zero => rfl
  | succ n =>
    rw [stateAfter]
    rw [hq]

theorem stateAfter_cons (env : Env) (rolesPath : String) (n : Nat) (st : ResolveState)
    (role : String) (rest : List String) (hq : st.toProcess = role :: rest) :
    stateAfter env rolesPath (n + 1) st =
      stateAfter env rolesPath n (loopBody env rolesPath role rest st) := by
  rw [stateAfter]
  rw [hq]

theorem stateAfter_inv (env : Env) (rolesPath : String) (seeds : List String) (n : Nat) :
    ∀ st, LoopInv env rolesPath seeds st →
      LoopInv env rolesPath seeds (stateAfter env rolesPath n st) := by
  induction n with
  | zero => intro st inv; exact inv
  | succ n ih =>
    intro st inv
    cases hq : st.toProcess with
    | nil =>
      rw [stateAfter_nil _ _ _ _ hq]
      exact inv
    | cons role rest =>
      rw [stateAfter_cons _ _ _ _ _ _ hq]
      exact ih _ (loopInv_step env rolesPath seeds st role rest hq inv)

theorem stateAfter_allDeps_mono (env : Env) (rolesPath : String) (n : Nat) :
    ∀ (st : ResolveState) (r : String), r ∈ st.allDeps →
      r ∈ (stateAfter env rolesPath n st).allDeps := by
  induction n with
  | zero => intro st r hr; exact hr
  | succ n ih =>
    intro st r hr
    cases hq : st.toProcess with
    | nil =>
      rw [stateAfter_nil _ _ _ _ hq]
      exact hr
    | cons role rest =>
      rw [stateAfter_cons _ _ _ _ _ _ hq]
      apply ih
      rw [(loopBody_eq env rolesPath role rest st).1]
      exact List.mem_append_left _ hr

theorem stateAfter_add (env : Env) (rolesPath : String) (n : Nat) :
    ∀ (k : Nat) (st : ResolveState),
      stateAfter env rolesPath (n + k) st =
        stateAfter env rolesPath k (stateAfter env rolesPath n st) := by
  induction n with
  | zero =>
    intro k st
    rw [Nat.zero_add]
    rfl
  | succ n ih =>
    intro k st
    cases hq : st.toProcess with
    | nil =>
      rw [stateAfter_nil _ _ _ _ hq, stateAfter_nil _ _ _ _ hq, stateAfter_nil _ _ _ _ hq]
    | cons role rest =>
      have e : n + 1 + k = (n + k) + 1 := by omega
      rw [e, stateAfter_cons _ _ _ _ _ _ hq, stateAfter_cons _ _ _ _ _ _ hq]
      exact ih k _

theorem workLoop_eq_stateAfter (env : Env) (rolesPath : String) (fuel : Nat) :
    ∀ st st1 : ResolveState, workLoop env rolesPath fuel st = some st1 →
      st1 = stateAfter env rolesPath fuel st := by
  induction fuel with
  | zero =>
    intro st st1 h
    cases hq : st.toProcess with
    | nil =>
      rw [workLoop_nil _ _ _ _ hq] at h
      simp only [Option.some.injEq] at h
      rw [← h]
      rfl
    | cons role rest =>
      rw [workLoop_zero_cons _ _ _ _ _ hq] at h
      simp at h
  | succ n ih =>
    intro st st1 h
    cases hq : st.toProcess with
    | nil =>
      rw [workLoop_nil _ _ _ _ hq] at h
      simp only [Option.some.injEq] at h
      rw [← h, stateAfter_nil _ _ _ _ hq]
    | cons role rest =>
      rw [workLoop_cons _ _ _ _ _ _ hq] at h
      rw [stateAfter_cons _ _ _ _ _ _ hq]
      exact ih _ _ h

/-- Claim C15: after any number of iterations of the work loop, every role in the queue
`toProcess` is marked `true` in `allDeps`.  The inner loop marks a dependency that is not
in `allDeps` and in the same step pushes it to the back of the queue, passes over one that
is in `allDeps`, and a key once in `allDeps` stays there in all later states.  The state
in which the loop ends is one of these states. -/
theorem queue_members_marked (env : Env) (rolesPath : String) (seeds : List String) :
    (∀ (n : Nat) (r : String),
        r ∈ (stateAfter env rolesPath n (initState seeds)).toProcess →
          mapGet (stateAfter env rolesPath n (initState seeds)).allDeps r = true) ∧
      (∀ (st : ResolveState) (dep : String) (deps : List String),
        mapGet st.allDeps dep = false →
          addDeps (dep :: deps) st =
              addDeps deps
                { st with
                  log := st.log ++ [LogEvent.addingDependency dep]
                  allDeps := st.allDeps ++ [dep]
                  toProcess := st.toProcess ++ [dep]
                  enqueued := st.enqueued ++ [dep] } ∧
            mapGet (st.allDeps ++ [dep]) dep = true) ∧
      (∀ (st : ResolveState) (dep : String) (deps : List String),
        mapGet st.allDeps dep = true → addDeps (dep :: deps) st = addDeps deps st) ∧
      (∀ (deps : List String) (st : ResolveState) (r : String),
        r ∈ st.allDeps → r ∈ (addDeps deps st).allDeps) ∧
      (∀ (n k : Nat) (r : String),
        r ∈ (stateAfter env rolesPath n (initState seeds)).allDeps →
          r ∈ (stateAfter env rolesPath (n + k) (initState seeds)).allDeps) ∧
      (∀ (fuel : Nat) (st1 : ResolveState),
        workLoop env rolesPath fuel (initState seeds) = some st1 →
          st1 = stateAfter env rolesPath fuel (initState seeds)) := by
  refine ⟨?_, ?_, ?_, ?_, ?_, ?_⟩
  · intro n r hr
    have inv := stateAfter_inv env rolesPath seeds n (initState seeds)
      (loopInv_init env rolesPath seeds)
    exact (mapGet_iff _ _).2 (inv.queue_mem r hr)
  · intro st dep deps h
    have hd : dep ∉ st.allDeps := (mapGet_false_iff _ _).1 h
    constructor
    · rw [addDeps]
      simp only [h, Bool.not_false, if_true]
      rw [mapSetTrue_of_not_mem _ _ hd]
    · rw [mapGet_iff]
      simp
  · intro st dep deps h
    rw [addDeps]
    simp [h]
  · intro deps st r hr
    rw [addDeps_eq]
    exact List.mem_append_left _ hr
  · intro n k r hr
    rw [stateAfter_add]
    exact stateAfter_allDeps_mono env rolesPath k _ r hr
  · intro fuel st1 h
    exact workLoop_eq_stateAfter env rolesPath fuel _ _ h

theorem queue_members_marked_witness :
    (stateAfter graphEnv "roles" 2 (initState ["A"])).toProcess = ["C", "D"] ∧
      "D" ∈ (stateAfter graphEnv "roles" 2 (initState ["A"])).toProcess ∧
      mapGet (stateAfter graphEnv "roles" 2 (initState ["A"])).allDeps "D" = true :=
  ⟨by decide, by decide,
    (queue_members_marked graphEnv "roles" ["A"]).1 2 "D" (by decide)⟩

/-! ## Counting the lookups -/

theorem workLoop_added (env : Env) (rolesPath : String) (seeds keys : List String)
    (fuel : Nat) :
    ∀ (st st1 : ResolveState) (added : List String),
      st.enqueued = seeds ++ added → st.allDeps = keys ++ added →
      workLoop env rolesPath fuel st = some st1 →
        ∃ added1, st1.enqueued = seeds ++ added1 ∧ st1.allDeps = keys ++ added1 := by
  induction fuel with
  | zero =>
    intro st st1 added hE hA h
    cases hq : st.toProcess with
    | nil =>
      rw [workLoop_nil _ _ _ _ hq] at h
      simp only [Option.some.injEq] at h
      subst h
      exact ⟨added, hE, hA⟩
    | cons role rest =>
      rw [workLoop_zero_cons _ _ _ _ _ hq] at h
      simp at h
  | succ n ih =>
    intro st st1 added hE hA h
    cases hq : st.toProcess with
    | nil =>
      rw [workLoop_nil _ _ _ _ hq] at h
      simp only [Option.some.injEq] at h
      subst h
      exact ⟨added, hE, hA⟩
    | cons role rest =>
      rw [workLoop_cons _ _ _ _ _ _ hq] at h
      obtain ⟨hA2, _, _, hE2⟩ := loopBody_eq env rolesPath role rest st
      exact ih _ st1 (added ++ newDeps st.allDeps (depsOf env rolesPath role))
        (by rw [hE2, hE, List.append_assoc]) (by rw [hA2, hA, List.append_assoc]) h

theorem foldl_mapSetTrue_of_nodup (l : List String) :
    ∀ m : GoMap, (m ++ l).Nodup → l.foldl mapSetTrue m = m ++ l := by
  induction l with
  | nil => intro m _; simp
  | cons a l ih =>
    intro m h
    have ha : a ∉ m := by
      intro hm
      have := (List.nodup_append.1 h).2.2
      exact this hm (List.mem_cons_self _ _)
    have e : m ++ a :: l = (m ++ [a]) ++ l := by simp
    rw [List.foldl_cons, mapSetTrue_of_not_mem _ _ ha, ih (m ++ [a]) (by rw [← e]; exact h), e]

theorem length_foldl_mapSetTrue (seeds : List String) :
    (seeds.foldl mapSetTrue []).length = seeds.dedup.length := by
  apply List.Perm.length_eq
  rw [List.perm_ext_iff_of_nodup (nodup_foldl_mapSetTrue seeds [] List.nodup_nil)
    (List.nodup_dedup seeds)]
  intro r
  rw [mem_foldl_mapSetTrue, List.mem_dedup]
  simp

theorem getAllDependencies_lengths (env : Env) (rolesPath : String) (seeds : List String)
    (fuel : Nat) (res : ResolveResult)
    (h : getAllDependencies env seeds rolesPath fuel = some res) :
    ∃ added, res.lookups = seeds ++ added ∧
      res.allDeps = seeds.foldl mapSetTrue [] ++ added := by
  obtain ⟨st, inv, hq, hA, hL, _, _⟩ := getAllDependencies_final env rolesPath seeds fuel res h
  have hle : st.lookups = st.enqueued := by
    rw [inv.enq, hq, List.append_nil]
  unfold getAllDependencies at h
  split at h
  · simp at h
  · rename_i st2 hst
    simp only [Option.some.injEq] at h
    subst h
    obtain ⟨added, h1, h2⟩ := workLoop_added env rolesPath seeds (seeds.foldl mapSetTrue [])
      fuel (initState seeds) st2 [] (by simp [initState]) (by simp [initState]) hst
    obtain ⟨inv2, hq2⟩ := workLoop_inv env rolesPath seeds fuel _ _
      (loopInv_init env rolesPath seeds) hst
    refine ⟨added, ?_, h2⟩
    show st2.lookups = seeds ++ added
    rw [← h1, inv2.enq, hq2, List.append_nil]

/-- Claim C20: with finitely many dependency names the call returns, and the number of
`getDependencies` lookups it made is the number of returned roles plus the number of seed
occurrences beyond the first of each name.  For a seed list without repeated names the two
numbers agree, the roles were looked up in the order in which they entered the map, and
each returned role was looked up exactly once. -/
theorem getAllDependencies_lookup_count (env : Env) (rolesPath : String)
    (seeds : List String) :
    (∀ fuel res, getAllDependencies env seeds rolesPath fuel = some res →
        res.lookups.length + seeds.dedup.length = res.allDeps.length + seeds.length ∧
          seeds.dedup.length ≤ seeds.length ∧
          res.lookups.length = res.allDeps.length + (seeds.length - seeds.dedup.length)) ∧
      (∀ fuel res, getAllDependencies env seeds rolesPath fuel = some res → seeds.Nodup →
        res.lookups.length = res.allDeps.length ∧ res.lookups = res.allDeps ∧
          ∀ r ∈ res.allDeps, res.lookups.count r = 1) ∧
      (∀ names, FiniteSupport env rolesPath names →
        ∀ fuel, names.length + seeds.length ≤ fuel →
          (getAllDependencies env seeds rolesPath fuel).isSome = true) := by
  refine ⟨?_, ?_, ?_⟩
  · intro fuel res h
    obtain ⟨added, h1, h2⟩ := getAllDependencies_lengths env rolesPath seeds fuel res h
    have hd : seeds.dedup.length ≤ seeds.length := (List.dedup_sublist seeds).length_le
    rw [h1, h2, List.length_append, List.length_append, length_foldl_mapSetTrue]
    omega
  · intro fuel res h hnodup
    obtain ⟨added, h1, h2⟩ := getAllDependencies_lengths env rolesPath seeds fuel res h
    have hf : seeds.foldl mapSetTrue [] = seeds := by
      have := foldl_mapSetTrue_of_nodup seeds [] (by simpa using hnodup)
      simpa using this
    rw [hf] at h2
    have heq : res.lookups = res.allDeps := by rw [h1, h2]
    obtain ⟨st, inv, _, hA, _⟩ := getAllDependencies_final env rolesPath seeds fuel res h
    refine ⟨by rw [heq], heq, ?_⟩
    intro r hr
    rw [heq]
    exact List.count_eq_one_of_mem (by rw [hA]; exact inv.nodup) hr
  · intro names hfin fuel hfuel
    obtain ⟨res, hres⟩ := getAllDependencies_some env rolesPath names seeds hfin fuel hfuel
    rw [hres]
    rfl

theorem getAllDependencies_lookup_count_witness :
    (getAllDependencies graphEnv ["D", "A", "D", "D"] "roles" 7).map
        (fun res => (res.lookups.length, res.allDeps.length)) = some (7, 5) ∧
      ∃ res, getAllDependencies graphEnv ["D", "A", "D", "D"] "roles" 7 = some res ∧
        res.lookups.length =
          res.allDeps.length +
            (["D", "A", "D", "D"].length - ["D", "A", "D", "D"].dedup.length) := by
  obtain ⟨res, hres⟩ := Option.isSome_iff_exists.1
    (show (getAllDependencies graphEnv ["D", "A", "D", "D"] "roles" 7).isSome = true by decide)
  exact ⟨by decide, res, hres,
    ((getAllDependencies_lookup_count graphEnv "roles" ["D", "A", "D", "D"]).1 7 res hres).2.2⟩

/-! ## Where the code departs from the claims on lookups and on the whole check -/

/-- Claim C9 fails as stated: where `roles/D/meta` is a regular file, the resource
`roles/D/meta/main.yml` does not exist, yet `os.ReadFile` fails with `ENOTDIR`, for which
`os.IsNotExist` does not hold, and `getDependencies` returns that error instead of the
empty list. -/
theorem getDependencies_not_a_directory :
    notDirEnv.stat "roles/D/meta" = .ok ⟨false, false⟩ ∧
      notDirEnv.lstat "roles/D/meta/main.yml" = .error errNotDir ∧
      notDirEnv.readFile (notDirEnv.join ["roles", "D", "meta", "main.yml"]) =
        .error errNotDir ∧
      errNotDir.isNotExist = false ∧
      getDependencies notDirEnv "D" "roles" = (.error errNotDir, []) :=
  ⟨rfl, rfl, rfl, rfl, rfl⟩

/-- Claim C1, evaluated on the code: the playbook whose only entry is `- role: db`
references the role db, the roles directory is empty, so db is missing; but
`getPlaybookRoles` extracts nothing from the `map[string]interface{}` entry and
`findMissingRoles` returns the empty list without error. -/
theorem findMissingRoles_misses_structured_entry :
    onlyDbEnv.unmarshalPlays "site" = .ok [⟨.seq [.strMap [("role", .str "db")]]⟩] ∧
      referencedRoles [⟨.seq [.strMap [("role", .str "db")]]⟩] = ["db"] ∧
      (getAllRoles onlyDbEnv "roles").1 = .ok [] ∧
      (getPlaybookRoles onlyDbEnv "site.yml").1 = .ok [] ∧
      (findMissingRoles onlyDbEnv "site.yml" "roles" 0).map Prod.fst = some (.ok []) :=
  ⟨rfl, rfl, rfl, rfl, rfl⟩

end RoleDep
